import Mathlib

/-!
Verification of the free-text-to-tabular extraction core of the crime_data
repository (file `src/memphis.py`): the response sanitizer
`_sanitize_response_text` and the parsing core of `_write_csv_from_text`,
composed the way the module-level loop composes them
(`clean = _sanitize_response_text(model_text); _write_csv_from_text(path, clean)`).

Text is modelled as `List Char`.  Python regex digits (`\d`) and `int()` on the
4-digit year tokens are modelled over ASCII digits `0`-`9`; the whitespace set
models Python's unicode whitespace as used by `str.strip`, `str.splitlines`
and `\s` in `re` patterns.  File writing is not modelled: the observable
outcome of `_write_csv_from_text` is the row list it would write, captured by
`ExtractionResult` (either the `year,count` rows, or the single-cell
`response` fallback holding the text it was given).
-/

namespace Memphis

/-- Python whitespace (the set matched by `\s` on `str` patterns and stripped
by `str.strip()` with no arguments). -/
def pySpace (c : Char) : Bool :=
  c = ' ' || c = '\t' || c = '\n' || c = '\r' || c = '\x0b' || c = '\x0c' ||
  c = '\x1c' || c = '\x1d' || c = '\x1e' || c = '\x1f' || c = '\x85' || c = '\xa0' ||
  c = '\u1680' || ('\u2000' ≤ c && c ≤ '\u200a') || c = '\u2028' || c = '\u2029' ||
  c = '\u202f' || c = '\u205f' || c = '\u3000'

/-- The separator characters of the pattern `\s*[-:–—]\s*` in
`_sanitize_response_text`. -/
def isSepChar (c : Char) : Bool :=
  c = '-' || c = ':' || c = '–' || c = '—'

/-- ASCII decimal digit (model of `\d` on the inputs of interest). -/
def isDig (c : Char) : Bool :=
  '0' ≤ c && c ≤ '9'

/-- Line boundaries recognized by Python `str.splitlines`. -/
def isLineBreakChar (c : Char) : Bool :=
  c = '\n' || c = '\r' || c = '\x0b' || c = '\x0c' || c = '\x1c' || c = '\x1d' ||
  c = '\x1e' || c = '\x85' || c = '\u2028' || c = '\u2029'

/-- Drop the longest suffix whose characters satisfy `p`. -/
def dropTrail (p : Char → Bool) (l : List Char) : List Char :=
  (l.reverse.dropWhile p).reverse

/-- Python `str.strip(chars)`: remove characters satisfying `p` from both ends. -/
def stripEnds (p : Char → Bool) (l : List Char) : List Char :=
  dropTrail p (l.dropWhile p)

/-- Python `str.strip()` with no arguments. -/
def pyStrip (l : List Char) : List Char :=
  stripEnds pySpace l

/-- The character set of `text.strip('`\n\r ')` in `_sanitize_response_text`. -/
def isOuterStrip (c : Char) : Bool :=
  c = '`' || c = '\n' || c = '\r' || c = ' '

/-- A literal backtick. -/
def isBacktick (c : Char) : Bool :=
  c = '`'

/-- Three backticks, the fence delimiter of the pattern. -/
def bq3 : List Char :=
  ['`', '`', '`']

/-- Split the text at each left-to-right non-overlapping occurrence of three
consecutive backticks, returning the segments between the occurrences.  This
mirrors how the regex engine scans for the fence delimiters of
`` re.sub(r"```[\s\S]*?```", ..., text) ``: the non-greedy inner part makes each
fence close at the next delimiter occurrence. -/
def splitTripleAux : List Char → List Char → List (List Char)
  | acc, '`' :: '`' :: '`' :: rest => acc.reverse :: splitTripleAux [] rest
  | acc, c :: cs => splitTripleAux (c :: acc) cs
  | acc, [] => [acc.reverse]

/-- Segments of the text between consecutive triple-backtick occurrences. -/
def splitTriple (l : List Char) : List (List Char) :=
  splitTripleAux [] l

/-- Reassemble the segments, replacing each closed fence
`` ``` inner ``` `` by `match.strip('`')` (the lambda of the source), and
keeping an unclosed trailing delimiter verbatim (the regex finds no match for
it, so the original characters remain). -/
def glueFence : List (List Char) → List Char
  | [] => []
  | [s] => s
  | [s, t] => s ++ bq3 ++ t
  | s :: t :: rest => s ++ stripEnds isBacktick (bq3 ++ t ++ bq3) ++ glueFence rest

/-- Model of `` re.sub(r"```[\s\S]*?```", lambda m: m.group(0).strip('`'), text) ``. -/
def fence_sub (l : List Char) : List Char :=
  glueFence (splitTriple l)

/-- One left-to-right pass of `re.sub(r"\s*[-:–—]\s*", ",", text)`.
`pending` holds (reversed) whitespace read so far that may yet become the
leading `\s*` of a match; `skip` is true right after a separator was replaced,
while its trailing `\s*` is being consumed. -/
def sepAux : Bool → List Char → List Char → List Char
  | _, pending, [] => pending.reverse
  | skip, pending, c :: cs =>
    if isSepChar c then ',' :: sepAux true [] cs
    else if pySpace c then
      (if skip then sepAux true [] cs else sepAux false (c :: pending) cs)
    else pending.reverse ++ c :: sepAux false [] cs

/-- Model of `re.sub(r"\s*[-:–—]\s*", ",", text)`. -/
def sep_sub (l : List Char) : List Char :=
  sepAux false [] l

/-- Model of `_sanitize_response_text`: strip fences, strip outer
backticks/newlines/spaces, then normalize separators to commas. -/
def sanitize_response_text (t : List Char) : List Char :=
  sep_sub (stripEnds isOuterStrip (fence_sub t))

/-- Python `str.splitlines` (no `keepends`): `\r\n` counts as one boundary and
a trailing boundary produces no extra empty line. -/
def splitlinesAux : List Char → List Char → List (List Char)
  | acc, '\r' :: '\n' :: rest => acc.reverse :: splitlinesAux [] rest
  | acc, c :: cs =>
    if isLineBreakChar c then acc.reverse :: splitlinesAux [] cs
    else splitlinesAux (c :: acc) cs
  | acc, [] => if acc.isEmpty then [] else [acc.reverse]

/-- Python `str.splitlines`. -/
def pySplitlines (l : List Char) : List (List Char) :=
  splitlinesAux [] l

/-- Model of `re.sub(r"^[\-\*•]\s*", "", line)`: remove one leading
bullet/heading marker and the whitespace run after it. -/
def stripBullet (l : List Char) : List Char :=
  match l with
  | c :: cs => if c = '-' || c = '*' || c = '•' then cs.dropWhile pySpace else l
  | [] => []

/-- Helper for `splitOnComma`: push a character onto the first piece. -/
def consHead (c : Char) : List (List Char) → List (List Char)
  | [] => [[c]]
  | h :: t => (c :: h) :: t

/-- Python `line.split(",")`: split at every comma, keeping empty pieces. -/
def splitOnComma : List Char → List (List Char)
  | [] => [[]]
  | c :: cs => if c = ',' then [] :: splitOnComma cs else consHead c (splitOnComma cs)

/-- Maximal runs of non-whitespace characters.  Python computes
`[p.strip() for p in re.split(r"\s+|\t", line) if p.strip()]`; since the split
pieces contain no whitespace, the strip is the identity on them and the filter
removes exactly the empty edge pieces, leaving the whitespace-separated words. -/
def wordsAux : List Char → List Char → List (List Char)
  | acc, [] => if acc.isEmpty then [] else [acc.reverse]
  | acc, c :: cs =>
    if pySpace c then
      (if acc.isEmpty then wordsAux [] cs else acc.reverse :: wordsAux [] cs)
    else wordsAux (c :: acc) cs

/-- Whitespace-separated words of a line. -/
def pyWords (l : List Char) : List (List Char) :=
  wordsAux [] l

/-- Model of `re.match(r"^\d{4}$", tok)`: the token is exactly four digits. -/
def is4digit (l : List Char) : Bool :=
  l.length == 4 && l.all isDig

/-- Tokenize one (stripped, bullet-stripped) line: split on commas when the
line contains one (stripping and discarding empty pieces), else split on
whitespace runs. -/
def tokenize (line : List Char) : List (List Char) :=
  if line.contains ',' then
    ((splitOnComma line).map pyStrip).filter (fun p => !p.isEmpty)
  else pyWords line

/-- The per-line year/value assignment of `_write_csv_from_text`
(lines 74-92 of the source), applied to the token list of one line:
if there are at least two tokens, use `(tok0, tok1)` when `tok0` is four
digits; otherwise look for any four-digit token `y`, whose value is the token
after the first occurrence of `y`, or `tok0` when that occurrence is last.
The final branch models the `except ValueError` handler (`val = parts[-1]`)
that fires when `parts.index(y)` fails. -/
def processParts (parts : List (List Char)) : Option (List Char × List Char) :=
  if 2 ≤ parts.length then
    let year := parts.getD 0 []
    let value := parts.getD 1 []
    if is4digit year then some (year, value)
    else
      match parts.filter is4digit with
      | [] => none
      | y :: _ =>
        if y ∈ parts then
          let idx := parts.indexOf y
          some (y, if idx + 1 < parts.length then parts.getD (idx + 1) [] else parts.getD 0 [])
        else some (y, parts.getLastD [])
  else none

/-- Process one raw line of the (sanitized) text: strip it, skip it when
blank, strip a leading bullet, tokenize, and assign year/value. -/
def processLine (raw : List Char) : Option (List Char × List Char) :=
  let line := pyStrip raw
  if line.isEmpty then none
  else processParts (tokenize (stripBullet line))

/-- The per-line pass of `_write_csv_from_text`: one candidate row per
parseable line, in line order. -/
def parseLines (t : List Char) : List (List Char × List Char) :=
  (pySplitlines t).filterMap processLine

/-- Fuel-indexed scan for `re.findall(r"(\d{4})[^\d]{0,10}(\d+)", text)`:
at each position, four digits followed by at most ten non-digits and then a
digit run yield a match (consumed whole); otherwise the scan advances one
character.  The fuel only bounds the recursion; `findAllPairs` supplies
`l.length`, which always suffices since every step consumes at least one
character. -/
def findAllPairsF : Nat → List Char → List (List Char × List Char)
  | 0, _ => []
  | _ + 1, [] => []
  | fuel + 1, a :: rest =>
    match rest with
    | b :: c :: d :: rest2 =>
      if isDig a && isDig b && isDig c && isDig d then
        let gap := rest2.takeWhile (fun x => !isDig x)
        let rem := rest2.dropWhile (fun x => !isDig x)
        if gap.length ≤ 10 && !rem.isEmpty then
          ([a, b, c, d], rem.takeWhile isDig) :: findAllPairsF fuel (rem.dropWhile isDig)
        else findAllPairsF fuel rest
      else findAllPairsF fuel rest
    | _ => []

/-- Model of `re.findall(r"(\d{4})[^\d]{0,10}(\d+)", text)`. -/
def findAllPairs (l : List Char) : List (List Char × List Char) :=
  findAllPairsF l.length l

/-- Python `int` on the (all-digit) year tokens that reach the range filter. -/
def digitsToNat (l : List Char) : Nat :=
  l.foldl (fun n c => 10 * n + (c.toNat - 48)) 0

/-- The hard-coded range filter `2014 <= int(y) <= 2024` of the source. -/
def yearOk (y : List Char) : Bool :=
  2014 ≤ digitsToNat y && digitsToNat y ≤ 2024

/-- What `_write_csv_from_text` writes: either the `year,count` rows, or the
single-cell `response` fallback row holding the text it received. -/
inductive ExtractionResult where
  | rows (rs : List (List Char × List Char)) : ExtractionResult
  | fallback (t : List Char) : ExtractionResult
deriving DecidableEq

/-- Candidate rows before range filtering: the per-line pass, or, when it
produced nothing, the whole-text regex scan (lines 94-98 of the source). -/
def candidateRows (t : List Char) : List (List Char × List Char) :=
  let ls := parseLines t
  if ls.isEmpty then findAllPairs t else ls

/-- The parsing core of `_write_csv_from_text` on the text it receives:
candidate rows, range filter, and the fallback decision of lines 100-113. -/
def write_csv_from_text (t : List Char) : ExtractionResult :=
  let ls := (candidateRows t).filter (fun r => yearOk r.1)
  if ls.isEmpty then .fallback t else .rows ls

/-- The extraction pipeline as composed by the module-level loop:
sanitize the raw model text, then parse it. -/
def extract (raw : List Char) : ExtractionResult :=
  write_csv_from_text (sanitize_response_text raw)

/-- The text contains three consecutive backticks somewhere. -/
def Trip (l : List Char) : Prop :=
  ∃ a b, l = a ++ bq3 ++ b

/-- The text contains two disjoint triple-backtick occurrences, i.e. the fence
pattern `` ```[\s\S]*?``` `` has a match. -/
def Pat (l : List Char) : Prop :=
  ∃ a b c, l = a ++ bq3 ++ b ++ bq3 ++ c

/-- Rebuild a text from its triple-backtick segments. -/
def joinT : List (List Char) → List Char
  | [] => []
  | [s] => s
  | s :: ss => s ++ bq3 ++ joinT ss

/-- The text does not end with a backtick (vacuously true for the empty text). -/
def lastNotBq (l : List Char) : Prop :=
  l.getLast? ≠ some '`'

/-- Join lines with single newline characters (no trailing newline). -/
def joinLines : List (List Char) → List Char
  | [] => []
  | [l] => l
  | l :: ls => l ++ '\n' :: joinLines ls

/-- Four consecutive ASCII digits occur somewhere in the text. -/
def has4Run : List Char → Bool
  | a :: rest@(b :: c :: d :: _) =>
    (isDig a && isDig b && isDig c && isDig d) || has4Run rest
  | _ => false

/-- A character that is not whitespace, not a separator character, and not a
backtick: it passes through `_sanitize_response_text` untouched. -/
def plainChar (c : Char) : Bool :=
  !pySpace c && !isSepChar c && !isBacktick c

/-- Build a text from rows of the shape `year ++ sep ++ value`, one line per
row, joined by newlines. -/
def buildText (rows : List (List Char × List Char × List Char)) : List Char :=
  joinLines (rows.map (fun r => r.1 ++ r.2.1 ++ r.2.2))

/-- Build a comma-separated `year,value` text, one line per row. -/
def buildCSV (rows : List (List Char × List Char)) : List Char :=
  joinLines (rows.map (fun r => r.1 ++ ',' :: r.2))

/-- The per-line year/value assignment with the `except ValueError` handler
removed: `parts.index(y)` is assumed to succeed.  Claim C9 states that this
agrees with `processParts` on every input, i.e. the handler is unreachable. -/
def processParts_noCatch (parts : List (List Char)) : Option (List Char × List Char) :=
  if 2 ≤ parts.length then
    let year := parts.getD 0 []
    let value := parts.getD 1 []
    if is4digit year then some (year, value)
    else
      match parts.filter is4digit with
      | [] => none
      | y :: _ =>
        let idx := parts.indexOf y
        some (y, if idx + 1 < parts.length then parts.getD (idx + 1) [] else parts.getD 0 [])
  else none

/-! ## Character-class lemmas -/

theorem sep_not_space {c : Char} (h : isSepChar c = true) : pySpace c = false := by
  simp only [isSepChar, Bool.or_eq_true, decide_eq_true_eq, or_assoc] at h
  rcases h with h | h | h | h <;> (subst h; decide)

theorem space_not_sep {c : Char} (h : pySpace c = true) : isSepChar c = false := by
  cases hs : isSepChar c
  · rfl
  · rw [sep_not_space hs] at h
    exact Bool.noConfusion h

theorem space_not_bq {c : Char} (h : pySpace c = true) : isBacktick c = false := by
  cases hb : isBacktick c
  · rfl
  · simp only [isBacktick, decide_eq_true_eq] at hb
    subst hb
    exact absurd h (by decide)

theorem dig_bounds {c : Char} (hd : isDig c = true) : '0' ≤ c ∧ c ≤ '9' := by
  simpa [isDig] using hd

theorem dig_not_space {c : Char} (hd : isDig c = true) : pySpace c = false := by
  have hd' := dig_bounds hd
  cases hs : pySpace c
  · rfl
  · exfalso
    simp only [pySpace, Bool.or_eq_true, Bool.and_eq_true, decide_eq_true_eq,
      or_assoc] at hs
    rcases hs with h|h|h|h|h|h|h|h|h|h|h|h|h|h|h|h|h|h|h
    all_goals try (subst h; revert hd; decide)
    exact absurd (le_trans h.1 hd'.2) (by decide)

theorem dig_ne_of {c d : Char} (hd : isDig c = true) (h2 : isDig d = false) : c ≠ d := by
  intro he
  subst he
  rw [hd] at h2
  exact Bool.noConfusion h2

theorem dig_not_sep {c : Char} (hd : isDig c = true) : isSepChar c = false := by
  cases hs : isSepChar c
  · rfl
  · exfalso
    simp only [isSepChar, Bool.or_eq_true, decide_eq_true_eq, or_assoc] at hs
    rcases hs with h|h|h|h <;> (subst h; revert hd; exact (by decide))

theorem dig_not_bq {c : Char} (hd : isDig c = true) : isBacktick c = false := by
  cases hb : isBacktick c
  · rfl
  · exfalso
    simp only [isBacktick, decide_eq_true_eq] at hb
    subst hb
    exact absurd hd (by decide)

theorem dig_plain {c : Char} (hd : isDig c = true) : plainChar c = true := by
  simp [plainChar, dig_not_space hd, dig_not_sep hd, dig_not_bq hd]

theorem plain_not_space {c : Char} (h : plainChar c = true) : pySpace c = false := by
  simp only [plainChar, Bool.and_eq_true, Bool.not_eq_true'] at h
  exact h.1.1

theorem plain_not_sep {c : Char} (h : plainChar c = true) : isSepChar c = false := by
  simp only [plainChar, Bool.and_eq_true, Bool.not_eq_true'] at h
  exact h.1.2

theorem plain_not_bq {c : Char} (h : plainChar c = true) : isBacktick c = false := by
  simp only [plainChar, Bool.and_eq_true, Bool.not_eq_true'] at h
  exact h.2

/-! ## Basic lemmas about the separator substitution -/

theorem sepAux_no_sep :
    ∀ (l : List Char) (skip : Bool) (pending : List Char),
      (∀ c ∈ pending, pySpace c = true) →
      ∀ c ∈ sepAux skip pending l, isSepChar c = false := by
  intro l
  induction l with
  | nil =>
    intro skip pending hp c hc
    simp only [sepAux, List.mem_reverse] at hc
    exact space_not_sep (hp c hc)
  | cons a cs ih =>
    intro skip pending hp c hc
    simp only [sepAux] at hc
    split_ifs at hc with h1 h2 h3
    · rcases List.mem_cons.mp hc with h | h
      · subst h; decide
      · exact ih true [] (by simp) c h
    · exact ih true [] (by simp) c hc
    · refine ih false (a :: pending) ?_ c hc
      intro x hx
      rcases List.mem_cons.mp hx with h | h
      · subst h; exact h2
      · exact hp x h
    · rcases List.mem_append.mp hc with h | h
      · exact space_not_sep (hp c (List.mem_reverse.mp h))
      · rcases List.mem_cons.mp h with h | h
        · subst h
          exact Bool.not_eq_true _ ▸ (Bool.of_not_eq_true h1)
        · exact ih false [] (by simp) c h

theorem sepAux_id_of_no_sep :
    ∀ (l : List Char) (pending : List Char),
      (∀ c ∈ l, isSepChar c = false) →
      sepAux false pending l = pending.reverse ++ l := by
  intro l
  induction l with
  | nil => intro pending _; simp [sepAux]
  | cons a cs ih =>
    intro pending h
    have ha : isSepChar a = false := h a (by simp)
    by_cases hw : pySpace a = true
    · simp only [sepAux, ha, Bool.false_eq_true, if_false, hw, if_true]
      rw [ih (a :: pending) (fun c hc => h c (List.mem_cons_of_mem a hc))]
      simp
    · simp only [sepAux, ha, Bool.false_eq_true, if_false,
        Bool.not_eq_true _ ▸ hw]
      rw [ih [] (fun c hc => h c (List.mem_cons_of_mem a hc))]
      simp

theorem sep_sub_no_sep (l : List Char) :
    ∀ c ∈ sep_sub l, isSepChar c = false :=
  sepAux_no_sep l false [] (by simp)

theorem sep_sub_id_of_no_sep (l : List Char) (h : ∀ c ∈ l, isSepChar c = false) :
    sep_sub l = l := by
  simpa [sep_sub] using sepAux_id_of_no_sep l [] h

theorem sep_sub_idem (l : List Char) : sep_sub (sep_sub l) = sep_sub l :=
  sep_sub_id_of_no_sep _ (sep_sub_no_sep l)

/-! ## Lemmas about end-stripping -/

theorem dropTrail_decomp (p : Char → Bool) (l : List Char) :
    ∃ b, l = dropTrail p l ++ b ∧ ∀ c ∈ b, p c = true := by
  refine ⟨(l.reverse.takeWhile p).reverse, ?_, ?_⟩
  · rw [dropTrail]
    conv_rhs => rw [← List.reverse_append, List.takeWhile_append_dropWhile, List.reverse_reverse]
  · intro c hc
    exact List.mem_takeWhile_imp (List.mem_reverse.mp hc)

theorem stripEnds_decomp (p : Char → Bool) (l : List Char) :
    ∃ a b, l = a ++ stripEnds p l ++ b ∧ (∀ c ∈ a, p c = true) ∧ (∀ c ∈ b, p c = true) := by
  obtain ⟨b, hb, hbp⟩ := dropTrail_decomp p (l.dropWhile p)
  refine ⟨l.takeWhile p, b, ?_, ?_, hbp⟩
  · conv_lhs => rw [← List.takeWhile_append_dropWhile p l, hb]
    simp [stripEnds]
  · intro c hc
    exact List.mem_takeWhile_imp hc

theorem head?_of_left {α : Type} {x y b : List α} {c : α} (hx : x = y ++ b)
    (hy : y.head? = some c) : x.head? = some c := by
  subst hx
  cases y with
  | nil => exact absurd hy (by simp)
  | cons d ds => simpa using hy

theorem stripEnds_head_not (p : Char → Bool) (l : List Char) {c : Char}
    (h : (stripEnds p l).head? = some c) : p c = false := by
  obtain ⟨b, hb, _⟩ := dropTrail_decomp p (l.dropWhile p)
  have hx : (l.dropWhile p).head? = some c := head?_of_left hb h
  have := List.head?_dropWhile_not p l
  rw [hx] at this
  simpa using this

theorem stripEnds_last_not (p : Char → Bool) (l : List Char) {c : Char}
    (h : (stripEnds p l).getLast? = some c) : p c = false := by
  have h2 : (List.dropWhile p (l.dropWhile p).reverse).head? = some c := by
    rw [← List.getLast?_reverse]
    simpa [stripEnds, dropTrail] using h
  have := List.head?_dropWhile_not p (l.dropWhile p).reverse
  rw [h2] at this
  simpa using this

theorem stripEnds_eq_self (p : Char → Bool) (l : List Char)
    (hh : ∀ c, l.head? = some c → p c = false)
    (hl : ∀ c, l.getLast? = some c → p c = false) : stripEnds p l = l := by
  have h1 : l.dropWhile p = l := by
    cases l with
    | nil => rfl
    | cons a as =>
      have := hh a rfl
      simp [List.dropWhile, this]
  have h2 : l.reverse.dropWhile p = l.reverse := by
    cases hr : l.reverse with
    | nil => rfl
    | cons a as =>
      have ha : l.getLast? = some a := by
        rw [← List.head?_reverse, hr]
        rfl
      have := hl a ha
      simp [List.dropWhile, this]
  rw [stripEnds, h1, dropTrail, h2, List.reverse_reverse]

/-! ## Head and last characters of the separator substitution -/

theorem getLast?_cons_ne {α : Type} (a : α) {X : List α} (hX : X ≠ []) :
    (a :: X).getLast? = X.getLast? := by
  cases X with
  | nil => exact absurd rfl hX
  | cons b bs => exact List.getLast?_cons_cons

theorem sepAux_false_nil :
    ∀ (l pending : List Char), sepAux false pending l = [] → pending = [] ∧ l = [] := by
  intro l
  induction l with
  | nil =>
    intro pending h
    simp only [sepAux, List.reverse_eq_nil_iff] at h
    exact ⟨h, rfl⟩
  | cons a cs ih =>
    intro pending h
    simp only [sepAux] at h
    split_ifs at h with h1 h2
    · contradiction
    · exact absurd (ih (a :: pending) h).1 (by simp)
    · exact absurd h (by simp)

theorem sepAux_head :
    ∀ (l pending : List Char),
      (sepAux false pending l).head? = some ',' ∨
        (sepAux false pending l).head? = (pending.reverse ++ l).head? := by
  intro l
  induction l with
  | nil => intro pending; right; simp [sepAux]
  | cons a cs ih =>
    intro pending
    by_cases h1 : isSepChar a = true
    · left; simp [sepAux, h1]
    · by_cases h2 : pySpace a = true
      · have heq : (a :: pending).reverse ++ cs = pending.reverse ++ a :: cs := by
          simp
        rcases ih (a :: pending) with h | h
        · left; simpa [sepAux, h1, h2] using h
        · right
          rw [heq] at h
          simpa [sepAux, h1, h2] using h
      · right
        simp only [sepAux, h1, Bool.false_eq_true, if_false, h2]
        cases hp : pending.reverse with
        | nil => simp
        | cons x xs => simp

theorem sepAux_last :
    ∀ (l : List Char) (skip : Bool) (pending : List Char),
      sepAux skip pending l = [] ∨ (sepAux skip pending l).getLast? = some ',' ∨
        (sepAux skip pending l).getLast? = (pending.reverse ++ l).getLast? := by
  intro l
  induction l with
  | nil => intro skip pending; right; right; simp [sepAux]
  | cons a cs ih =>
    intro skip pending
    by_cases h1 : isSepChar a = true
    · rcases hX : sepAux true ([] : List Char) cs with _ | ⟨x, xs⟩
      · right; left; simp [sepAux, h1, hX]
      · have hcs : cs ≠ [] := by
          intro hc
          subst hc
          simp [sepAux] at hX
        rcases ih true [] with h | h | h
        · rw [hX] at h; exact absurd h (by simp)
        · right; left
          rw [hX] at h
          simp only [sepAux, h1, if_true, hX]
          rw [getLast?_cons_ne ',' (by simp), h]
        · right; right
          rw [hX] at h
          simp only [List.reverse_nil, List.nil_append] at h
          simp only [sepAux, h1, if_true, hX]
          rw [getLast?_cons_ne ',' (by simp), h]
          rcases hcs2 : cs with _ | ⟨y, ys⟩
          · exact absurd hcs2 hcs
          · rw [List.getLast?_append_cons, getLast?_cons_ne a (by simp)]
    · by_cases h2 : pySpace a = true
      · cases skip with
        | false =>
          have heq : (a :: pending).reverse ++ cs = pending.reverse ++ a :: cs := by
            simp
          rcases ih false (a :: pending) with h | h | h
          · left; simpa [sepAux, h1, h2] using h
          · right; left; simpa [sepAux, h1, h2] using h
          · right; right
            rw [heq] at h
            simpa [sepAux, h1, h2] using h
        | true =>
          rcases hX : sepAux true ([] : List Char) cs with _ | ⟨x, xs⟩
          · left; simp [sepAux, h1, h2, hX]
          · have hcs : cs ≠ [] := by
              intro hc
              subst hc
              simp [sepAux] at hX
            rcases ih true [] with h | h | h
            · rw [hX] at h; exact absurd h (by simp)
            · right; left
              rw [hX] at h
              simpa [sepAux, h1, h2, hX] using h
            · right; right
              rw [hX] at h
              simp only [List.reverse_nil, List.nil_append] at h
              simp only [sepAux, h1, Bool.false_eq_true, if_false, h2, if_true, hX]
              rw [h]
              rcases hcs2 : cs with _ | ⟨y, ys⟩
              · exact absurd hcs2 hcs
              · rw [List.getLast?_append_cons, getLast?_cons_ne a (by simp)]
      · rcases hX : sepAux false ([] : List Char) cs with _ | ⟨x, xs⟩
        · have := (sepAux_false_nil cs [] hX).2
          subst this
          right; right
          simp [sepAux, h1, h2, hX]
        · have hcs : cs ≠ [] := by
            intro hc
            subst hc
            simp [sepAux] at hX
          have hne : (x :: xs : List Char) ≠ [] := by simp
          rcases ih false [] with h | h | h
          · rw [hX] at h; exact absurd h (by simp)
          · right; left
            rw [hX] at h
            simp only [sepAux, h1, Bool.false_eq_true, if_false, h2]
            rw [List.getLast?_append_cons, hX, getLast?_cons_ne a hne, h]
          · right; right
            rw [hX] at h
            simp only [List.reverse_nil, List.nil_append] at h
            simp only [sepAux, h1, Bool.false_eq_true, if_false, h2]
            rw [List.getLast?_append_cons, hX, getLast?_cons_ne a hne, h]
            rcases hcs2 : cs with _ | ⟨y, ys⟩
            · exact absurd hcs2 hcs
            · rw [List.getLast?_append_cons, getLast?_cons_ne a (by simp)]

theorem sep_sub_head (l : List Char) :
    (sep_sub l).head? = some ',' ∨ (sep_sub l).head? = l.head? := by
  simpa [sep_sub] using sepAux_head l []

theorem sep_sub_last (l : List Char) :
    sep_sub l = [] ∨ (sep_sub l).getLast? = some ',' ∨ (sep_sub l).getLast? = l.getLast? := by
  simpa [sep_sub] using sepAux_last l false []

/-! ## Fence substitution is the identity on backtick-free text -/

theorem trip_cons {l : List Char} (c : Char) (h : Trip l) : Trip (c :: l) := by
  obtain ⟨a, b, rfl⟩ := h
  exact ⟨c :: a, b, rfl⟩

theorem trip_has_bq {l : List Char} (h : Trip l) : '`' ∈ l := by
  obtain ⟨a, b, rfl⟩ := h
  simp [bq3]

theorem splitTripleAux_no_trip :
    ∀ (l acc : List Char), ¬Trip l → splitTripleAux acc l = [acc.reverse ++ l] := by
  intro l
  induction l with
  | nil => intro acc _; simp [splitTripleAux]
  | cons c cs ih =>
    intro acc h
    rw [splitTripleAux.eq_def]
    split
    · rename_i rest heq
      refine absurd ⟨[], rest, ?_⟩ h
      simpa [bq3] using heq
    · rename_i hno heq
      injection heq with h1 h2
      subst h1
      subst h2
      rw [ih _ (fun ht => h (trip_cons c ht))]
      simp
    · rename_i heq
      exact absurd heq (by simp)

theorem fence_sub_no_trip {l : List Char} (h : ¬Trip l) : fence_sub l = l := by
  rw [fence_sub, splitTriple, splitTripleAux_no_trip l [] h]
  simp [glueFence]

theorem fence_sub_no_bq {l : List Char} (h : ∀ c ∈ l, c ≠ '`') : fence_sub l = l :=
  fence_sub_no_trip (fun ht => h '`' (trip_has_bq ht) rfl)

/-! ## Splitlines lemmas -/

theorem break_is_space {c : Char} (h : isLineBreakChar c = true) : pySpace c = true := by
  simp only [isLineBreakChar, Bool.or_eq_true, decide_eq_true_eq, or_assoc] at h
  rcases h with h|h|h|h|h|h|h|h|h|h <;> (subst h; decide)

theorem not_space_not_break {c : Char} (h : pySpace c = false) : isLineBreakChar c = false := by
  cases hb : isLineBreakChar c
  · rfl
  · rw [break_is_space hb] at h
    exact Bool.noConfusion h

set_option maxHeartbeats 2000000 in
theorem splitlinesAux_cons (acc : List Char) (a : Char) (t : List Char) (ha : a ≠ '\r') :
    splitlinesAux acc (a :: t) =
      if isLineBreakChar a then acc.reverse :: splitlinesAux [] t
      else splitlinesAux (a :: acc) t := by
  rw [splitlinesAux.eq_def]
  split
  · rename_i heq
    injection heq with h1 _
    exact absurd h1 ha
  · rename_i heq
    injection heq with h1 h2
    subst h1
    subst h2
    rfl
  · rename_i heq
    exact absurd heq (by simp)

theorem splitlinesAux_scan (s : List Char) :
    ∀ (acc z : List Char), (∀ c ∈ s, isLineBreakChar c = false) →
      splitlinesAux acc (s ++ z) = splitlinesAux (s.reverse ++ acc) z := by
  induction s with
  | nil => intro acc z _; simp
  | cons a s' ih =>
    intro acc z h
    have ha : isLineBreakChar a = false := h a (by simp)
    have har : a ≠ '\r' := by
      intro he
      rw [he] at ha
      exact absurd ha (by decide)
    rw [List.cons_append, splitlinesAux_cons acc a (s' ++ z) har, ha]
    simp only [Bool.false_eq_true, if_false]
    rw [ih (a :: acc) z (fun c hc => h c (List.mem_cons_of_mem a hc))]
    simp

theorem splitlinesAux_end (acc : List Char) (h : acc ≠ []) :
    splitlinesAux acc [] = [acc.reverse] := by
  rw [splitlinesAux.eq_def]
  simp [h]

theorem pySplitlines_joinLines :
    ∀ (ls : List (List Char)), ls ≠ [] →
      (∀ l ∈ ls, l ≠ [] ∧ ∀ c ∈ l, isLineBreakChar c = false) →
      pySplitlines (joinLines ls) = ls := by
  intro ls
  induction ls with
  | nil => intro h; exact absurd rfl h
  | cons L rest ih =>
    intro _ hc
    obtain ⟨hL, hLb⟩ := hc L (by simp)
    cases rest with
    | nil =>
      show splitlinesAux [] (joinLines [L]) = [L]
      rw [joinLines]
      have := splitlinesAux_scan L [] [] hLb
      rw [List.append_nil] at this
      rw [this, splitlinesAux_end _ (by simp [hL]), List.append_nil, List.reverse_reverse]
    | cons M rest2 =>
      show splitlinesAux [] (joinLines (L :: M :: rest2)) = L :: M :: rest2
      have hj : joinLines (L :: M :: rest2) = L ++ '\n' :: joinLines (M :: rest2) := rfl
      rw [hj]
      rw [splitlinesAux_scan L [] ('\n' :: joinLines (M :: rest2)) hLb]
      rw [splitlinesAux_cons _ '\n' _ (by decide)]
      simp only [show isLineBreakChar '\n' = true from rfl, if_true, List.append_nil,
        List.reverse_reverse]
      have := ih (List.cons_ne_nil M rest2) (fun l hl => hc l (List.mem_cons_of_mem L hl))
      rw [pySplitlines] at this
      rw [this]

/-! ## Tokenization lemmas for comma-separated lines -/

theorem pyStrip_eq_self {l : List Char} (h : ∀ c ∈ l, pySpace c = false) : pyStrip l = l :=
  stripEnds_eq_self pySpace l
    (fun c hc => h c (List.mem_of_mem_head? hc))
    (fun c hc => h c (List.mem_of_mem_getLast? hc))

theorem splitOnComma_no (l : List Char) (h : ∀ c ∈ l, c ≠ ',') : splitOnComma l = [l] := by
  induction l with
  | nil => rfl
  | cons a cs ih =>
    have ha : a ≠ ',' := h a (by simp)
    rw [splitOnComma, if_neg ha, ih (fun c hc => h c (List.mem_cons_of_mem a hc))]
    rfl

theorem splitOnComma_append (y v : List Char) (hy : ∀ c ∈ y, c ≠ ',') :
    splitOnComma (y ++ ',' :: v) = y :: splitOnComma v := by
  induction y with
  | nil => simp [splitOnComma]
  | cons a y' ih =>
    have ha : a ≠ ',' := hy a (by simp)
    rw [List.cons_append, splitOnComma, if_neg ha,
      ih (fun c hc => hy c (List.mem_cons_of_mem a hc))]
    rfl

theorem contains_true {c : Char} {l : List Char} (h : c ∈ l) : l.contains c = true := by
  simpa [List.contains] using h

theorem is4digit_ne_nil {y : List Char} (h : is4digit y = true) : y ≠ [] := by
  intro he
  subst he
  exact Bool.noConfusion h

theorem is4digit_all_dig {y : List Char} (h : is4digit y = true) : ∀ c ∈ y, isDig c = true := by
  simp only [is4digit, Bool.and_eq_true, List.all_eq_true] at h
  exact h.2

theorem processParts_pair (y v : List Char) (h4 : is4digit y = true) :
    processParts [y, v] = some (y, v) := by
  simp [processParts, h4]

theorem processLine_csv (y v : List Char) (h4 : is4digit y = true)
    (hv : v ≠ []) (hvd : ∀ c ∈ v, isDig c = true) :
    processLine (y ++ ',' :: v) = some (y, v) := by
  have hyd := is4digit_all_dig h4
  have hns : ∀ c ∈ y ++ ',' :: v, pySpace c = false := by
    intro c hc
    rcases List.mem_append.mp hc with h | h
    · exact dig_not_space (hyd c h)
    · rcases List.mem_cons.mp h with h | h
      · subst h; decide
      · exact dig_not_space (hvd c h)
  have hyne := is4digit_ne_nil h4
  have hstrip : pyStrip (y ++ ',' :: v) = y ++ ',' :: v := pyStrip_eq_self hns
  have hnonempty : (y ++ ',' :: v).isEmpty = false := by
    cases y with
    | nil => rfl
    | cons a as => rfl
  rw [processLine]
  simp only [hstrip, hnonempty, Bool.false_eq_true, if_false]
  have hbullet : stripBullet (y ++ ',' :: v) = y ++ ',' :: v := by
    cases hy : y with
    | nil => exact absurd hy hyne
    | cons a as =>
      have had : isDig a = true := by
        apply hyd
        rw [hy]
        simp
      have h1 : a ≠ '-' := dig_ne_of had (by decide)
      have h2 : a ≠ '*' := dig_ne_of had (by decide)
      have h3 : a ≠ '•' := dig_ne_of had (by decide)
      simp only [List.cons_append, stripBullet]
      simp [h1, h2, h3]
  rw [hbullet]
  have hyc : ∀ c ∈ y, c ≠ ',' := fun c hc => dig_ne_of (hyd c hc) (by decide)
  have hvc : ∀ c ∈ v, c ≠ ',' := fun c hc => dig_ne_of (hvd c hc) (by decide)
  have hcontains : (y ++ ',' :: v).contains ',' = true :=
    contains_true (by simp)
  rw [tokenize, if_pos hcontains, splitOnComma_append y v hyc, splitOnComma_no v hvc]
  have hsy : pyStrip y = y := pyStrip_eq_self (fun c hc => dig_not_space (hyd c hc))
  have hsv : pyStrip v = v := pyStrip_eq_self (fun c hc => dig_not_space (hvd c hc))
  simp only [List.map_cons, List.map_nil, hsy, hsv]
  have hye : y.isEmpty = false := by
    cases hy : y with
    | nil => exact absurd hy hyne
    | cons a as => rfl
  have hve : v.isEmpty = false := by
    cases hy : v with
    | nil => exact absurd hy hv
    | cons a as => rfl
  rw [List.filter_cons, List.filter_cons, List.filter_nil]
  simp only [hye, hve, Bool.not_false, if_true]
  exact processParts_pair y v h4

/-! ## Character inventory of comma-built texts -/

theorem mem_joinLines {c : Char} :
    ∀ {ls : List (List Char)}, c ∈ joinLines ls → c = '\n' ∨ ∃ l ∈ ls, c ∈ l := by
  intro ls
  induction ls with
  | nil => intro h; simp [joinLines] at h
  | cons L rest ih =>
    cases rest with
    | nil =>
      intro h
      right
      exact ⟨L, by simp, by simpa [joinLines] using h⟩
    | cons M rest2 =>
      intro h
      have hj : joinLines (L :: M :: rest2) = L ++ '\n' :: joinLines (M :: rest2) := rfl
      rw [hj] at h
      rcases List.mem_append.mp h with h | h
      · right; exact ⟨L, by simp, h⟩
      · rcases List.mem_cons.mp h with h | h
        · left; exact h
        · rcases ih h with h | ⟨l, hl, hcl⟩
          · left; exact h
          · right; exact ⟨l, List.mem_cons_of_mem L hl, hcl⟩

theorem joinLines_head? :
    ∀ (ls : List (List Char)) (L : List Char),
      ls.head? = some L → L ≠ [] → (joinLines ls).head? = L.head? := by
  intro ls
  cases ls with
  | nil => intro L h; exact absurd h (by simp)
  | cons A rest =>
    intro L h hL
    have hA : A = L := by simpa using h
    subst hA
    cases rest with
    | nil => rfl
    | cons M rest2 =>
      have hj : joinLines (A :: M :: rest2) = A ++ '\n' :: joinLines (M :: rest2) := rfl
      rw [hj]
      exact List.head?_append_of_ne_nil _ hL

theorem joinLines_getLast? :
    ∀ (ls : List (List Char)) (L : List Char),
      ls.getLast? = some L → L ≠ [] → (joinLines ls).getLast? = L.getLast? := by
  intro ls
  induction ls with
  | nil => intro L h; exact absurd h (by simp)
  | cons A rest ih =>
    intro L h hL
    cases rest with
    | nil =>
      have hA : A = L := by simpa using h
      subst hA
      rfl
    | cons M rest2 =>
      have h2 : (M :: rest2).getLast? = some L := by
        rw [← h]
        exact (List.getLast?_cons_cons).symm
      have hrec := ih L h2 hL
      have hj : joinLines (A :: M :: rest2) = A ++ '\n' :: joinLines (M :: rest2) := rfl
      have hjoin_ne : joinLines (M :: rest2) ≠ [] := by
        cases rest2 with
        | nil =>
          have hM : M = L := by simpa using h2
          subst hM
          simpa [joinLines] using hL
        | cons P rest3 =>
          have hj2 : joinLines (M :: P :: rest3) = M ++ '\n' :: joinLines (P :: rest3) := rfl
          rw [hj2]
          simp
      rw [hj, List.getLast?_append_cons, getLast?_cons_ne '\n' hjoin_ne]
      exact hrec

theorem mem_buildCSV {rows : List (List Char × List Char)} {c : Char}
    (h : c ∈ buildCSV rows) :
    c = '\n' ∨ c = ',' ∨ ∃ r ∈ rows, c ∈ r.1 ∨ c ∈ r.2 := by
  rcases mem_joinLines h with h | ⟨l, hl, hcl⟩
  · left; exact h
  · obtain ⟨r, hr, rfl⟩ := List.mem_map.mp hl
    rcases List.mem_append.mp hcl with h | h
    · right; right; exact ⟨r, hr, Or.inl h⟩
    · rcases List.mem_cons.mp h with h | h
      · right; left; exact h
      · right; right; exact ⟨r, hr, Or.inr h⟩

theorem buildCSV_chars {rows : List (List Char × List Char)}
    (hr : ∀ r ∈ rows, is4digit r.1 = true ∧ r.2 ≠ [] ∧ ∀ c ∈ r.2, isDig c = true) :
    ∀ c ∈ buildCSV rows, c = '\n' ∨ c = ',' ∨ isDig c = true := by
  intro c hc
  rcases mem_buildCSV hc with h | h | ⟨r, hrr, h | h⟩
  · left; exact h
  · right; left; exact h
  · right; right; exact is4digit_all_dig (hr r hrr).1 c h
  · right; right; exact (hr r hrr).2.2 c h

theorem dig_not_outer {c : Char} (hd : isDig c = true) : isOuterStrip c = false := by
  cases ho : isOuterStrip c
  · rfl
  · exfalso
    simp only [isOuterStrip, Bool.or_eq_true, decide_eq_true_eq, or_assoc] at ho
    rcases ho with h|h|h|h <;> (subst h; revert hd; exact (by decide))

/-! ## Sanitization is the identity on comma-built digit texts -/

theorem sanitize_buildCSV (rows : List (List Char × List Char)) (hne : rows ≠ [])
    (hr : ∀ r ∈ rows, is4digit r.1 = true ∧ r.2 ≠ [] ∧ ∀ c ∈ r.2, isDig c = true) :
    sanitize_response_text (buildCSV rows) = buildCSV rows := by
  have hchars := buildCSV_chars hr
  have hbq : ∀ c ∈ buildCSV rows, c ≠ '`' := by
    intro c hc
    rcases hchars c hc with h | h | h
    · subst h; decide
    · subst h; decide
    · exact dig_ne_of h (by decide)
  have hfence : fence_sub (buildCSV rows) = buildCSV rows := fence_sub_no_bq hbq
  obtain ⟨R, rows2, hrw⟩ : ∃ R rows2, rows = R :: rows2 := by
    cases rows with
    | nil => exact absurd rfl hne
    | cons R rows2 => exact ⟨R, rows2, rfl⟩
  have hstrip : stripEnds isOuterStrip (buildCSV rows) = buildCSV rows := by
    apply stripEnds_eq_self
    · intro c hc
      subst hrw
      have hne1 : R.1 ≠ [] := is4digit_ne_nil (hr R (by simp)).1
      have hh : (buildCSV (R :: rows2)).head? = (R.1 ++ ',' :: R.2).head? := by
        apply joinLines_head?
        · simp [buildCSV]
        · simp [hne1]
      rw [hh] at hc
      have hc2 : (R.1 ++ ',' :: R.2).head? = some c := hc
      have hcd : isDig c = true := by
        cases hy : R.1 with
        | nil => exact absurd hy hne1
        | cons a as =>
          rw [hy, List.cons_append] at hc2
          simp only [List.head?_cons, Option.some_inj] at hc2
          subst hc2
          exact is4digit_all_dig (hr R (by simp)).1 a (by rw [hy]; simp)
      exact dig_not_outer hcd
    · intro c hc
      subst hrw
      obtain ⟨Rl, hRl⟩ : ∃ Rl, (R :: rows2).getLast? = some Rl := by
        cases h : (R :: rows2).getLast? with
        | none => simp at h
        | some Rl => exact ⟨Rl, rfl⟩
      have hRlm : Rl ∈ R :: rows2 := List.mem_of_mem_getLast? hRl
      have hRv : Rl.2 ≠ [] := (hr Rl hRlm).2.1
      have hl : (buildCSV (R :: rows2)).getLast? = (Rl.1 ++ ',' :: Rl.2).getLast? := by
        apply joinLines_getLast?
        · rw [List.getLast?_map, hRl]
          rfl
        · simp
      rw [hl] at hc
      have hcd : isDig c = true := by
        have hc2 : (Rl.2).getLast? = some c := by
          rw [List.getLast?_append_cons] at hc
          rw [getLast?_cons_ne ',' hRv] at hc
          exact hc
        exact (hr Rl hRlm).2.2 c (List.mem_of_mem_getLast? hc2)
      exact dig_not_outer hcd
  have hsep : sep_sub (buildCSV rows) = buildCSV rows := by
    apply sep_sub_id_of_no_sep
    intro c hc
    rcases hchars c hc with h | h | h
    · subst h; decide
    · subst h; decide
    · exact dig_not_sep h
  rw [sanitize_response_text, hfence, hstrip, hsep]

/-! ## The per-line pass on comma-built digit texts -/

theorem parseLines_buildCSV (rows : List (List Char × List Char)) (hne : rows ≠ [])
    (hr : ∀ r ∈ rows, is4digit r.1 = true ∧ r.2 ≠ [] ∧ ∀ c ∈ r.2, isDig c = true) :
    parseLines (buildCSV rows) = rows := by
  have hsplit : pySplitlines (buildCSV rows) = rows.map (fun r => r.1 ++ ',' :: r.2) := by
    apply pySplitlines_joinLines
    · simpa using hne
    · intro l hl
      obtain ⟨r, hrr, rfl⟩ := List.mem_map.mp hl
      constructor
      · simp
      · intro c hc
        rcases List.mem_append.mp hc with h | h
        · exact not_space_not_break (dig_not_space (is4digit_all_dig (hr r hrr).1 c h))
        · rcases List.mem_cons.mp h with h | h
          · subst h; decide
          · exact not_space_not_break (dig_not_space ((hr r hrr).2.2 c h))
  rw [parseLines, hsplit]
  clear hsplit hne
  induction rows with
  | nil => rfl
  | cons r rest ih =>
    rw [List.map_cons, List.filterMap_cons]
    have hp := processLine_csv r.1 r.2 (hr r (by simp)).1 (hr r (by simp)).2.1 (hr r (by simp)).2.2
    rw [hp]
    rw [ih (fun x hx => hr x (List.mem_cons_of_mem r hx))]

/-- C1: for every input text consisting solely of non-blank lines of the form
`<4-digit year>,<integer>` with each year in the inclusive window
`[2014, 2024]`, extraction returns exactly one `(year, count)` row per line,
with the year and count string tokens of that line, and the rows appear in the
same order as the lines of the normalized text. -/
theorem claim_C1 (rows : List (List Char × List Char)) (hne : rows ≠ [])
    (hr : ∀ r ∈ rows, is4digit r.1 = true ∧ yearOk r.1 = true ∧ r.2 ≠ [] ∧
      ∀ c ∈ r.2, isDig c = true) :
    extract (buildCSV rows) = ExtractionResult.rows rows := by
  have hr2 : ∀ r ∈ rows, is4digit r.1 = true ∧ r.2 ≠ [] ∧ ∀ c ∈ r.2, isDig c = true :=
    fun r h => ⟨(hr r h).1, (hr r h).2.2.1, (hr r h).2.2.2⟩
  rw [extract, sanitize_buildCSV rows hne hr2, write_csv_from_text]
  have hparse := parseLines_buildCSV rows hne hr2
  have hre : rows.isEmpty = false := by
    cases rows with
    | nil => exact absurd rfl hne
    | cons r rest => rfl
  simp only [candidateRows, hparse, hre, Bool.false_eq_true, if_false]
  have hfilter : rows.filter (fun r => yearOk r.1) = rows :=
    List.filter_eq_self.mpr (fun r h => (hr r h).2.1)
  rw [hfilter, hre]
  simp

/-- Witness for C1 at a concrete two-line text. -/
theorem claim_C1_witness :
    extract (buildCSV [(("2014").data, ("120").data), (("2024").data, ("7").data)]) =
      ExtractionResult.rows [(("2014").data, ("120").data), (("2024").data, ("7").data)] :=
  claim_C1 _ (by decide) (by decide)

/-! ## Separator-substitution compositional lemmas -/

theorem sep_not_bq {c : Char} (h : isSepChar c = true) : isBacktick c = false := by
  simp only [isSepChar, Bool.or_eq_true, decide_eq_true_eq, or_assoc] at h
  rcases h with h | h | h | h <;> (subst h; decide)

theorem outer_space_or_bq {c : Char} (h : isOuterStrip c = true) :
    pySpace c = true ∨ isBacktick c = true := by
  simp only [isOuterStrip, Bool.or_eq_true, decide_eq_true_eq, or_assoc] at h
  rcases h with h | h | h | h
  · subst h; right; decide
  · subst h; left; decide
  · subst h; left; decide
  · subst h; left; decide

theorem plain_not_outer {c : Char} (h : plainChar c = true) : isOuterStrip c = false := by
  cases ho : isOuterStrip c
  · rfl
  · rcases outer_space_or_bq ho with h2 | h2
    · rw [plain_not_space h] at h2; exact Bool.noConfusion h2
    · rw [plain_not_bq h] at h2; exact Bool.noConfusion h2

theorem sepAux_plain :
    ∀ (x : List Char), (∀ c ∈ x, pySpace c = false ∧ isSepChar c = false) →
      ∀ z, sepAux false [] (x ++ z) = x ++ sepAux false [] z := by
  intro x
  induction x with
  | nil => intro _ z; rfl
  | cons a x' ih =>
    intro h z
    obtain ⟨hw, hs⟩ := h a (by simp)
    rw [List.cons_append, sepAux]
    simp only [hs, Bool.false_eq_true, if_false, hw]
    rw [ih (fun c hc => h c (List.mem_cons_of_mem a hc)) z]
    rfl

theorem sepAux_ws_push :
    ∀ (w : List Char), (∀ c ∈ w, pySpace c = true) →
      ∀ (pending z : List Char),
        sepAux false pending (w ++ z) = sepAux false (w.reverse ++ pending) z := by
  intro w
  induction w with
  | nil => intro _ pending z; rfl
  | cons a w' ih =>
    intro h pending z
    have hw : pySpace a = true := h a (by simp)
    have hs : isSepChar a = false := space_not_sep hw
    rw [List.cons_append, sepAux]
    simp only [hs, Bool.false_eq_true, if_false, hw, if_true]
    rw [ih (fun c hc => h c (List.mem_cons_of_mem a hc)) (a :: pending) z]
    simp

theorem sepAux_skip_ws :
    ∀ (w : List Char), (∀ c ∈ w, pySpace c = true) →
      ∀ z, sepAux true [] (w ++ z) = sepAux true [] z := by
  intro w
  induction w with
  | nil => intro _ z; rfl
  | cons a w' ih =>
    intro h z
    have hw : pySpace a = true := h a (by simp)
    have hs : isSepChar a = false := space_not_sep hw
    rw [List.cons_append, sepAux]
    simp only [hs, Bool.false_eq_true, if_false, hw, if_true]
    exact ih (fun c hc => h c (List.mem_cons_of_mem a hc)) z

theorem sepAux_skip_exit (z : List Char)
    (h : ∀ d, z.head? = some d → pySpace d = false) :
    sepAux true [] z = sepAux false [] z := by
  cases z with
  | nil => rfl
  | cons d z' =>
    have hd : pySpace d = false := h d rfl
    by_cases hs : isSepChar d = true
    · simp [sepAux, hs]
    · simp [sepAux, hs, hd]

theorem sepAux_emit (pending z : List Char) (hzne : z ≠ [])
    (hz : ∀ d, z.head? = some d → isSepChar d = false ∧ pySpace d = false) :
    sepAux false pending z = pending.reverse ++ sepAux false [] z := by
  cases z with
  | nil => exact absurd rfl hzne
  | cons d z' =>
    obtain ⟨hs, hw⟩ := hz d rfl
    rw [sepAux]
    simp only [hs, Bool.false_eq_true, if_false, hw]
    conv_rhs => rw [sepAux]
    simp [hs, hw]

theorem sep_sub_lineAny (y sep v : List Char)
    (hy : y ≠ []) (hyp : ∀ c ∈ y, plainChar c = true)
    (hv : v ≠ []) (hvp : ∀ c ∈ v, plainChar c = true)
    (hsep : sep = [','] ∨ ∃ s1 sc s2, sep = s1 ++ sc :: s2 ∧
      (∀ c ∈ s1, pySpace c = true) ∧ isSepChar sc = true ∧ ∀ c ∈ s2, pySpace c = true) :
    ∀ z, sepAux false [] ((y ++ sep ++ v) ++ z) = y ++ ',' :: v ++ sepAux false [] z := by
  intro z
  have hyP : ∀ c ∈ y, pySpace c = false ∧ isSepChar c = false :=
    fun c hc => ⟨plain_not_space (hyp c hc), plain_not_sep (hyp c hc)⟩
  have hvP : ∀ c ∈ v, pySpace c = false ∧ isSepChar c = false :=
    fun c hc => ⟨plain_not_space (hvp c hc), plain_not_sep (hvp c hc)⟩
  rcases hsep with rfl | ⟨s1, sc, s2, rfl, hs1, hsc, hs2⟩
  · have hall : ∀ c ∈ y ++ ',' :: v, pySpace c = false ∧ isSepChar c = false := by
      intro c hc
      rcases List.mem_append.mp hc with h | h
      · exact hyP c h
      · rcases List.mem_cons.mp h with h | h
        · subst h; exact ⟨by decide, by decide⟩
        · exact hvP c h
    have := sepAux_plain (y ++ ',' :: v) hall z
    simp only [List.append_assoc, List.cons_append, List.singleton_append,
      List.nil_append] at this ⊢
    rw [this]
  · have h1 : (y ++ (s1 ++ sc :: s2) ++ v) ++ z = y ++ (s1 ++ (sc :: (s2 ++ (v ++ z))))  := by
      simp
    rw [h1, sepAux_plain y hyP, sepAux_ws_push s1 hs1 [] (sc :: (s2 ++ (v ++ z))), sepAux]
    simp only [hsc, if_true]
    rw [sepAux_skip_ws s2 hs2 (v ++ z)]
    have hvhead : ∀ d, (v ++ z).head? = some d → pySpace d = false := by
      intro d hd
      have hdm : d ∈ v := by
        cases hv2 : v with
        | nil => exact absurd hv2 hv
        | cons b bs =>
          rw [hv2, List.cons_append] at hd
          simp only [List.head?_cons, Option.some_inj] at hd
          rw [← hd]
          exact List.mem_cons_self b bs
      exact plain_not_space (hvp d hdm)
    rw [sepAux_skip_exit (v ++ z) hvhead, sepAux_plain v hvP z]
    simp

/-! ## Characters and head of seperator-built texts -/

theorem mem_buildText {rows : List (List Char × List Char × List Char)} {c : Char}
    (h : c ∈ buildText rows) :
    c = '\n' ∨ ∃ r ∈ rows, c ∈ r.1 ∨ c ∈ r.2.1 ∨ c ∈ r.2.2 := by
  rcases mem_joinLines h with h | ⟨l, hl, hcl⟩
  · left; exact h
  · obtain ⟨r, hr, rfl⟩ := List.mem_map.mp hl
    rcases List.mem_append.mp hcl with h | h
    · rcases List.mem_append.mp h with h | h
      · right; exact ⟨r, hr, Or.inl h⟩
      · right; exact ⟨r, hr, Or.inr (Or.inl h)⟩
    · right; exact ⟨r, hr, Or.inr (Or.inr h)⟩

theorem buildText_head? (r2 : List Char × List Char × List Char)
    (rest2 : List (List Char × List Char × List Char)) (hy : r2.1 ≠ []) :
    (buildText (r2 :: rest2)).head? = r2.1.head? := by
  have h1 : (buildText (r2 :: rest2)).head? = (r2.1 ++ r2.2.1 ++ r2.2.2).head? := by
    apply joinLines_head?
    · simp [buildText]
    · intro he
      rw [List.append_assoc] at he
      exact hy (List.append_eq_nil.mp he).1
  rw [h1, List.append_assoc]
  exact List.head?_append_of_ne_nil _ hy

theorem not_bq_ne {c : Char} (h : isBacktick c = false) : c ≠ '`' := by
  intro he
  subst he
  exact Bool.noConfusion h

theorem sep_sub_buildText :
    ∀ (rows : List (List Char × List Char × List Char)),
      (∀ r ∈ rows, r.1 ≠ [] ∧ (∀ c ∈ r.1, plainChar c = true) ∧ r.2.2 ≠ [] ∧
        ∀ c ∈ r.2.2, plainChar c = true) →
      (∀ r ∈ rows, r.2.1 = [','] ∨ ∃ s1 sc s2, r.2.1 = s1 ++ sc :: s2 ∧
        (∀ c ∈ s1, pySpace c = true) ∧ isSepChar sc = true ∧ ∀ c ∈ s2, pySpace c = true) →
      sep_sub (buildText rows) = buildCSV (rows.map (fun r => (r.1, r.2.2))) := by
  intro rows
  induction rows with
  | nil => intro _ _; rfl
  | cons r rest ih =>
    intro hr hsep
    obtain ⟨hy, hyp, hv, hvp⟩ := hr r (by simp)
    cases rest with
    | nil =>
      show sepAux false [] (buildText [r]) = buildCSV [(r.1, r.2.2)]
      have hb : buildText [r] = (r.1 ++ r.2.1 ++ r.2.2) ++ [] := by
        simp [buildText, joinLines]
      rw [hb]
      rw [sep_sub_lineAny r.1 r.2.1 r.2.2 hy hyp hv hvp (hsep r (by simp)) []]
      show r.1 ++ ',' :: r.2.2 ++ [] = buildCSV [(r.1, r.2.2)]
      simp [buildCSV, joinLines]
    | cons r2 rest2 =>
      obtain ⟨hy2, hyp2, _, _⟩ := hr r2 (by simp)
      show sepAux false [] (buildText (r :: r2 :: rest2)) = _
      have hb : buildText (r :: r2 :: rest2) =
          (r.1 ++ r.2.1 ++ r.2.2) ++ '\n' :: buildText (r2 :: rest2) := rfl
      rw [hb]
      rw [sep_sub_lineAny r.1 r.2.1 r.2.2 hy hyp hv hvp (hsep r (by simp))
        ('\n' :: buildText (r2 :: rest2))]
      have hstep : sepAux false [] ('\n' :: buildText (r2 :: rest2)) =
          '\n' :: sepAux false [] (buildText (r2 :: rest2)) := by
        rw [sepAux]
        simp only [show isSepChar '\n' = false from rfl, Bool.false_eq_true, if_false,
          show pySpace '\n' = true from rfl, if_true]
        obtain ⟨d, y2t, hd⟩ : ∃ d t, r2.1 = d :: t := by
          cases h2 : r2.1 with
          | nil => exact absurd h2 hy2
          | cons d t => exact ⟨d, t, rfl⟩
        have hhead : (buildText (r2 :: rest2)).head? = some d := by
          rw [buildText_head? r2 rest2 hy2, hd]
          rfl
        have hdp : plainChar d = true := hyp2 d (by rw [hd]; simp)
        have hTne : buildText (r2 :: rest2) ≠ [] := by
          intro he
          rw [he] at hhead
          exact Option.noConfusion hhead
        rw [sepAux_emit ['\n'] (buildText (r2 :: rest2)) hTne]
        · rfl
        · intro e he
          rw [hhead] at he
          have : d = e := by simpa using he
          subst this
          exact ⟨plain_not_sep hdp, plain_not_space hdp⟩
      rw [hstep]
      have hihs := ih (fun x hx => hr x (List.mem_cons_of_mem r hx))
        (fun x hx => hsep x (List.mem_cons_of_mem r hx))
      rw [sep_sub] at hihs
      rw [hihs]
      show r.1 ++ ',' :: r.2.2 ++ '\n' :: buildCSV ((r2 :: rest2).map (fun x => (x.1, x.2.2))) = _
      simp only [List.map_cons, buildCSV]
      have hj : joinLines ((r.1 ++ ',' :: r.2.2) ::
          (r2.1 ++ ',' :: r2.2.2) :: (rest2.map (fun x => (x.1, x.2.2))).map
            (fun q => q.1 ++ ',' :: q.2)) =
          (r.1 ++ ',' :: r.2.2) ++ '\n' :: joinLines ((r2.1 ++ ',' :: r2.2.2) ::
            (rest2.map (fun x => (x.1, x.2.2))).map (fun q => q.1 ++ ',' :: q.2)) := rfl
      rw [hj]

theorem sanitize_buildText (rows : List (List Char × List Char × List Char))
    (hne : rows ≠ [])
    (hr : ∀ r ∈ rows, r.1 ≠ [] ∧ (∀ c ∈ r.1, plainChar c = true) ∧ r.2.2 ≠ [] ∧
      ∀ c ∈ r.2.2, plainChar c = true)
    (hsep : ∀ r ∈ rows, r.2.1 = [','] ∨ ∃ s1 sc s2, r.2.1 = s1 ++ sc :: s2 ∧
      (∀ c ∈ s1, pySpace c = true) ∧ isSepChar sc = true ∧ ∀ c ∈ s2, pySpace c = true) :
    sanitize_response_text (buildText rows) = buildCSV (rows.map (fun r => (r.1, r.2.2))) := by
  have hsepchars : ∀ r ∈ rows, ∀ c ∈ r.2.1, pySpace c = true ∨ isSepChar c = true ∨ c = ',' := by
    intro r hrr c hc
    rcases hsep r hrr with h | ⟨s1, sc, s2, h, hs1, hsc, hs2⟩
    · rw [h] at hc
      right; right
      simpa using hc
    · rw [h] at hc
      rcases List.mem_append.mp hc with h2 | h2
      · left; exact hs1 c h2
      · rcases List.mem_cons.mp h2 with h2 | h2
        · subst h2; right; left; exact hsc
        · left; exact hs2 c h2
  have hbq : ∀ c ∈ buildText rows, c ≠ '`' := by
    intro c hc
    rcases mem_buildText hc with h | ⟨r, hrr, h | h | h⟩
    · subst h; decide
    · exact not_bq_ne (plain_not_bq ((hr r hrr).2.1 c h))
    · rcases hsepchars r hrr c h with h2 | h2 | h2
      · exact not_bq_ne (space_not_bq h2)
      · exact not_bq_ne (sep_not_bq h2)
      · subst h2; decide
    · exact not_bq_ne (plain_not_bq ((hr r hrr).2.2.2 c h))
  have hfence : fence_sub (buildText rows) = buildText rows := fence_sub_no_bq hbq
  obtain ⟨R, rows2, hrw⟩ : ∃ R rows2, rows = R :: rows2 := by
    cases rows with
    | nil => exact absurd rfl hne
    | cons R rows2 => exact ⟨R, rows2, rfl⟩
  have hstrip : stripEnds isOuterStrip (buildText rows) = buildText rows := by
    apply stripEnds_eq_self
    · intro c hc
      subst hrw
      obtain ⟨hy, hyp, _, _⟩ := hr R (by simp)
      rw [buildText_head? R rows2 hy] at hc
      exact plain_not_outer (hyp c (List.mem_of_mem_head? hc))
    · intro c hc
      subst hrw
      obtain ⟨Rl, hRl⟩ : ∃ Rl, (R :: rows2).getLast? = some Rl := by
        cases h : (R :: rows2).getLast? with
        | none => simp at h
        | some Rl => exact ⟨Rl, rfl⟩
      have hRlm : Rl ∈ R :: rows2 := List.mem_of_mem_getLast? hRl
      obtain ⟨_, _, hv, hvp⟩ := hr Rl hRlm
      have hl : (buildText (R :: rows2)).getLast? =
          (Rl.1 ++ Rl.2.1 ++ Rl.2.2).getLast? := by
        apply joinLines_getLast?
        · rw [List.getLast?_map, hRl]
          rfl
        · intro he
          rw [List.append_assoc] at he
          exact hv (List.append_eq_nil.mp (List.append_eq_nil.mp he).2).2
      rw [hl, List.append_assoc, List.getLast?_append_of_ne_nil _] at hc
      · rw [List.getLast?_append_of_ne_nil _ hv] at hc
        exact plain_not_outer (hvp c (List.mem_of_mem_getLast? hc))
      · intro he
        exact hv (List.append_eq_nil.mp he).2
  rw [sanitize_response_text, hfence, hstrip]
  exact sep_sub_buildText rows hr hsep

/-- C2: replacing the comma between year and value by any of the separators
`-`, `:`, `–`, `—` surrounded by whitespace yields an extraction result
identical to that of the comma-separated equivalent; in particular, the input
`2014 - 120\n2015: 98\n2016 87` yields exactly the rows
`(2014,120), (2015,98), (2016,87)` in that order. -/
theorem claim_C2 :
    (∀ rows : List (List Char × List Char × List Char), rows ≠ [] →
      (∀ r ∈ rows, r.1 ≠ [] ∧ (∀ c ∈ r.1, plainChar c = true) ∧ r.2.2 ≠ [] ∧
        ∀ c ∈ r.2.2, plainChar c = true) →
      (∀ r ∈ rows, r.2.1 = [','] ∨ ∃ s1 sc s2, r.2.1 = s1 ++ sc :: s2 ∧
        (∀ c ∈ s1, pySpace c = true) ∧ isSepChar sc = true ∧ ∀ c ∈ s2, pySpace c = true) →
      extract (buildText rows) =
        extract (buildText (rows.map (fun r => (r.1, ([','] : List Char), r.2.2))))) ∧
    extract (("2014 - 120\n2015: 98\n2016 87").data) =
      ExtractionResult.rows [(("2014").data, ("120").data), (("2015").data, ("98").data),
        (("2016").data, ("87").data)] := by
  constructor
  · intro rows hne hr hsep
    have hne2 : rows.map (fun r => (r.1, ([','] : List Char), r.2.2)) ≠ [] := by
      simpa using hne
    have hr2 : ∀ r ∈ rows.map (fun r => (r.1, ([','] : List Char), r.2.2)),
        r.1 ≠ [] ∧ (∀ c ∈ r.1, plainChar c = true) ∧ r.2.2 ≠ [] ∧
          ∀ c ∈ r.2.2, plainChar c = true := by
      intro r hrr
      obtain ⟨x, hx, rfl⟩ := List.mem_map.mp hrr
      exact ⟨(hr x hx).1, (hr x hx).2.1, (hr x hx).2.2.1, (hr x hx).2.2.2⟩
    have hsep2 : ∀ r ∈ rows.map (fun r => (r.1, ([','] : List Char), r.2.2)),
        r.2.1 = [','] ∨ ∃ s1 sc s2, r.2.1 = s1 ++ sc :: s2 ∧
          (∀ c ∈ s1, pySpace c = true) ∧ isSepChar sc = true ∧
          ∀ c ∈ s2, pySpace c = true := by
      intro r hrr
      obtain ⟨x, hx, rfl⟩ := List.mem_map.mp hrr
      left
      rfl
    rw [extract, extract, sanitize_buildText rows hne hr hsep,
      sanitize_buildText _ hne2 hr2 hsep2]
    rw [List.map_map]
    rfl
  · decide

/-- Witness for the universal part of C2 at a concrete one-line text with the
separator `-` surrounded by spaces. -/
theorem claim_C2_witness :
    extract (buildText [(("2014").data, (" - ").data, ("120").data)]) =
      extract (buildText ([(("2014").data, (" - ").data, ("120").data)].map
        (fun r => (r.1, ([','] : List Char), r.2.2)))) :=
  claim_C2.1 _ (by decide) (by decide)
    (by
      intro r hrr
      rw [List.mem_singleton] at hrr
      subst hrr
      right
      exact ⟨[' '], '-', [' '], rfl, by decide, by decide, by decide⟩)

/-! ## Structure of the extraction result -/

/-- C5: the result of every extraction call is never empty: it is either a
nonempty list of `(year, count)` rows or exactly one fallback diagnostic row,
never zero rows and never a mixture of the two shapes. -/
theorem claim_C5 (raw : List Char) :
    (∃ rs, extract raw = ExtractionResult.rows rs ∧ rs ≠ []) ∨
      ∃ t, extract raw = ExtractionResult.fallback t := by
  rcases hls : (candidateRows (sanitize_response_text raw)).filter (fun r => yearOk r.1) with
    _ | ⟨a, rest⟩
  · right
    exact ⟨sanitize_response_text raw, by simp [extract, write_csv_from_text, hls]⟩
  · left
    exact ⟨a :: rest, by simp [extract, write_csv_from_text, hls], by simp⟩

/-! ## Years of candidate rows are four-digit tokens -/

theorem processParts_year {parts : List (List Char)} {y v : List Char}
    (h : processParts parts = some (y, v)) : is4digit y = true := by
  rw [processParts] at h
  split_ifs at h with h2
  · by_cases h4 : is4digit (parts.getD 0 []) = true
    · rw [if_pos h4] at h
      simp only [Option.some_inj, Prod.mk.injEq] at h
      rw [← h.1]
      exact h4
    · rw [if_neg h4] at h
      rcases hf : parts.filter is4digit with _ | ⟨y0, ys⟩
      · simp only [hf] at h
        exact Option.noConfusion h
      · simp only [hf] at h
        have hy0 : is4digit y0 = true := by
          have hm : y0 ∈ parts.filter is4digit := by rw [hf]; simp
          exact (List.mem_filter.mp hm).2
        by_cases hm2 : y0 ∈ parts
        · rw [if_pos hm2] at h
          simp only [Option.some_inj, Prod.mk.injEq] at h
          rw [← h.1]
          exact hy0
        · rw [if_neg hm2] at h
          simp only [Option.some_inj, Prod.mk.injEq] at h
          rw [← h.1]
          exact hy0

theorem processLine_year {raw : List Char} {y v : List Char}
    (h : processLine raw = some (y, v)) : is4digit y = true := by
  rw [processLine] at h
  split_ifs at h
  exact processParts_year h

theorem parseLines_year {t : List Char} {p : List Char × List Char}
    (h : p ∈ parseLines t) : is4digit p.1 = true := by
  rw [parseLines] at h
  obtain ⟨raw, _, hp⟩ := List.mem_filterMap.mp h
  obtain ⟨y, v, rfl⟩ : ∃ y v, p = (y, v) := ⟨p.1, p.2, rfl⟩
  exact processLine_year hp

theorem findAllPairsF_year :
    ∀ (n : Nat) (l : List Char) (p : List Char × List Char),
      p ∈ findAllPairsF n l → is4digit p.1 = true := by
  intro n
  induction n with
  | zero => intro l p hp; simp [findAllPairsF] at hp
  | succ n ih =>
    intro l p hp
    rcases l with _ | ⟨a, rest⟩
    · simp [findAllPairsF] at hp
    · rcases rest with _ | ⟨b, rest1⟩
      · simp [findAllPairsF] at hp
      · rcases rest1 with _ | ⟨c, rest2⟩
        · simp [findAllPairsF] at hp
        · rcases rest2 with _ | ⟨d, rest3⟩
          · simp [findAllPairsF] at hp
          · simp only [findAllPairsF] at hp
            split_ifs at hp with hdig hgap
            · rcases List.mem_cons.mp hp with h | h
              · subst h
                simp only [Bool.and_eq_true] at hdig
                simp [is4digit, hdig.1.1.1, hdig.1.1.2, hdig.1.2, hdig.2]
              · exact ih _ p h
            · exact ih _ p hp
            · exact ih _ p hp

theorem candidateRows_year {t : List Char} {p : List Char × List Char}
    (h : p ∈ candidateRows t) : is4digit p.1 = true := by
  rw [candidateRows] at h
  split_ifs at h
  · exact findAllPairsF_year _ _ p h
  · exact parseLines_year h

/-- C4: every row of a non-fallback extraction result has a year token of
exactly four digits whose integer value lies in `[2014, 2024]`; candidate rows
with out-of-range years are dropped by the filter; and when the filter drops
every candidate row the result degrades to the fallback row. -/
theorem claim_C4 :
    (∀ raw rs, extract raw = ExtractionResult.rows rs →
      ∀ p ∈ rs, is4digit p.1 = true ∧ 2014 ≤ digitsToNat p.1 ∧ digitsToNat p.1 ≤ 2024) ∧
    (∀ t p, p ∈ candidateRows t → yearOk p.1 = false →
      p ∉ (candidateRows t).filter (fun r => yearOk r.1)) ∧
    (∀ raw, (candidateRows (sanitize_response_text raw)).filter (fun r => yearOk r.1) = [] →
      extract raw = ExtractionResult.fallback (sanitize_response_text raw)) := by
  refine ⟨?_, ?_, ?_⟩
  · intro raw rs hex p hp
    have hrs : rs = (candidateRows (sanitize_response_text raw)).filter (fun r => yearOk r.1) := by
      rw [extract, write_csv_from_text] at hex
      split_ifs at hex with he
      simp only [ExtractionResult.rows.injEq] at hex
      exact hex.symm
    rw [hrs] at hp
    have hym : yearOk p.1 = true := by
      have := List.mem_filter.mp hp
      simpa using this.2
    have hcand := List.mem_of_mem_filter hp
    refine ⟨candidateRows_year hcand, ?_, ?_⟩
    · exact (by simpa [yearOk, Bool.and_eq_true] using hym : _ ∧ _).1
    · exact (by simpa [yearOk, Bool.and_eq_true] using hym : _ ∧ _).2
  · intro t p _ hbad hmem
    have := List.mem_filter.mp hmem
    rw [hbad] at this
    exact Bool.noConfusion this.2
  · intro raw h
    simp [extract, write_csv_from_text, h]

/-- Witness for C4: a concrete extraction whose single row satisfies the year
shape and range facts, and a concrete all-dropped input that falls back. -/
theorem claim_C4_witness :
    (is4digit ("2014").data = true ∧ 2014 ≤ digitsToNat ("2014").data ∧
      digitsToNat ("2014").data ≤ 2024) ∧
    extract ("abc").data = ExtractionResult.fallback (sanitize_response_text ("abc").data) := by
  constructor
  · exact claim_C4.1 (("2014,120").data) [(("2014").data, ("120").data)] (by decide)
      ((("2014").data, ("120").data)) (by decide)
  · exact claim_C4.2.2 (("abc").data) (by decide)

/-! ## The first-4-digit-token lookup always succeeds -/

theorem indexOf_lt_of_mem {parts : List (List Char)} {y : List Char} (h : y ∈ parts) :
    parts.indexOf y < parts.length := by
  induction parts with
  | nil => simp at h
  | cons a rest ih =>
    rw [List.indexOf_cons]
    cases hb : (a == y) with
    | true => simp
    | false =>
      rcases List.mem_cons.mp h with h2 | h2
      · rw [h2] at hb
        rw [beq_self_eq_true a] at hb
        exact Bool.noConfusion hb
      · simpa using Nat.succ_lt_succ (ih h2)

/-- C9: in the per-line year-search branch the chosen year is always an
element of the token list, so `parts.index(y)` never raises and the
`except ValueError` handler assigning `parts[-1]` is unreachable: the
assignment with the handler removed agrees with the real one on every input. -/
theorem claim_C9 :
    (∀ (parts : List (List Char)) (y : List Char) (ys : List (List Char)),
      parts.filter is4digit = y :: ys → y ∈ parts ∧ parts.indexOf y < parts.length) ∧
    ∀ parts, processParts parts = processParts_noCatch parts := by
  constructor
  · intro parts y ys hf
    have hm : y ∈ parts.filter is4digit := by rw [hf]; simp
    have hyp := List.mem_of_mem_filter hm
    exact ⟨hyp, indexOf_lt_of_mem hyp⟩
  · intro parts
    rw [processParts, processParts_noCatch]
    split_ifs with h2
    · by_cases h4 : is4digit (parts.getD 0 []) = true
      · rw [if_pos h4, if_pos h4]
      · rw [if_neg h4, if_neg h4]
        rcases hf : parts.filter is4digit with _ | ⟨y0, ys⟩
        · simp only [hf]
        · simp only [hf]
          have hm : y0 ∈ parts.filter is4digit := by rw [hf]; simp
          have hyp := List.mem_of_mem_filter hm
          rw [if_pos hyp]
    · rfl

/-- Witness for C9 at concrete tokens: the filter picks `2014` out of
`Robbery 2014 123` and it is indeed an element with index below length. -/
theorem claim_C9_witness :
    ("2014").data ∈ [("Robbery").data, ("2014").data, ("123").data] ∧
      [("Robbery").data, ("2014").data, ("123").data].indexOf (("2014").data) <
        [("Robbery").data, ("2014").data, ("123").data].length :=
  claim_C9.1 [("Robbery").data, ("2014").data, ("123").data] (("2014").data) [] (by decide)

/-! ## First-4-digit-token decomposition (claim C6) -/

theorem filter_cons_decomp :
    ∀ (parts : List (List Char)) (y : List Char) (ys : List (List Char)),
      parts.filter is4digit = y :: ys →
      ∃ pre post, parts = pre ++ y :: post ∧ (∀ x ∈ pre, is4digit x = false) ∧
        is4digit y = true := by
  intro parts
  induction parts with
  | nil => intro y ys h; simp at h
  | cons a rest ih =>
    intro y ys h
    rw [List.filter_cons] at h
    by_cases ha : is4digit a = true
    · rw [if_pos ha] at h
      injection h with h1 h2
      subst h1
      exact ⟨[], rest, rfl, by simp, ha⟩
    · rw [if_neg ha] at h
      obtain ⟨pre, post, heq, hpre, hy⟩ := ih y ys h
      refine ⟨a :: pre, post, by rw [heq]; rfl, ?_, hy⟩
      intro x hx
      rcases List.mem_cons.mp hx with h2 | h2
      · subst h2
        simpa using ha
      · exact hpre x h2

theorem beq_false_of_ne {a y : List Char} (h : a ≠ y) : (a == y) = false := by
  cases hb : (a == y)
  · rfl
  · exact absurd (by simpa using hb) h

theorem indexOf_append_front (pre : List (List Char)) (y : List Char)
    (post : List (List Char)) (hpre : ∀ x ∈ pre, x ≠ y) :
    (pre ++ y :: post).indexOf y = pre.length := by
  induction pre with
  | nil => simp [List.indexOf_cons]
  | cons a pre2 ih =>
    rw [List.cons_append, List.indexOf_cons,
      beq_false_of_ne (hpre a (by simp))]
    rw [ih (fun x hx => hpre x (List.mem_cons_of_mem a hx))]
    rfl

theorem getD_append_length (pre : List (List Char)) (y : List Char)
    (post : List (List Char)) :
    (pre ++ y :: post).getD pre.length [] = y := by
  induction pre with
  | nil => rfl
  | cons a pre2 ih => simpa using ih

theorem getD_append_lt (pre : List (List Char)) (y : List Char)
    (post : List (List Char)) :
    ∀ i, i < pre.length → (pre ++ y :: post).getD i [] ∈ pre := by
  induction pre with
  | nil => intro i hi; exact absurd hi (by simp)
  | cons a pre2 ih =>
    intro i hi
    cases i with
    | zero => simp
    | succ j =>
      have hj : j < pre2.length := by simpa using hi
      have := ih j hj
      simpa using List.mem_cons_of_mem a this

/-- C6: for every tokenized line with at least two tokens whose first token is
not exactly four digits but which contains some token of exactly four digits,
the first such token is taken as the year (everything before its position
fails the 4-digit test) and the token immediately after it as the value; when
that 4-digit token is the last token the value is token 0, the first token of
the line. -/
theorem claim_C6 (parts : List (List Char)) (h2 : 2 ≤ parts.length)
    (h0 : is4digit (parts.getD 0 []) = false) (y : List Char) (ys : List (List Char))
    (hf : parts.filter is4digit = y :: ys) :
    is4digit y = true ∧
    parts.indexOf y < parts.length ∧
    parts.getD (parts.indexOf y) [] = y ∧
    (∀ i, i < parts.indexOf y → is4digit (parts.getD i []) = false) ∧
    processParts parts = some (y,
      if parts.indexOf y + 1 < parts.length then parts.getD (parts.indexOf y + 1) []
      else parts.getD 0 []) := by
  obtain ⟨pre, post, heq, hpre, hy⟩ := filter_cons_decomp parts y ys hf
  subst heq
  have hney : ∀ x ∈ pre, x ≠ y := by
    intro x hx he
    have hx2 := hpre x hx
    rw [he, hy] at hx2
    exact Bool.noConfusion hx2
  have hmem : y ∈ pre ++ y :: post := by simp
  have hidx : (pre ++ y :: post).indexOf y = pre.length :=
    indexOf_append_front pre y post hney
  refine ⟨hy, indexOf_lt_of_mem hmem, ?_, ?_, ?_⟩
  · rw [hidx]
    exact getD_append_length pre y post
  · intro i hi
    rw [hidx] at hi
    exact hpre _ (getD_append_lt pre y post i hi)
  · rw [processParts, if_pos h2, if_neg (by rw [h0]; exact Bool.false_ne_true)]
    simp only [hf]
    rw [if_pos hmem]

/-- Witness for C6: the tokens of `Robbery 2014 123` pick year `2014` at
index 1 with value `123`. -/
theorem claim_C6_witness :
    is4digit (("2014").data) = true ∧
    [("Robbery").data, ("2014").data, ("123").data].indexOf (("2014").data) <
      [("Robbery").data, ("2014").data, ("123").data].length ∧
    [("Robbery").data, ("2014").data, ("123").data].getD
      ([("Robbery").data, ("2014").data, ("123").data].indexOf (("2014").data)) [] =
      ("2014").data ∧
    (∀ i, i < [("Robbery").data, ("2014").data, ("123").data].indexOf (("2014").data) →
      is4digit ([("Robbery").data, ("2014").data, ("123").data].getD i []) = false) ∧
    processParts [("Robbery").data, ("2014").data, ("123").data] = some (("2014").data,
      if [("Robbery").data, ("2014").data, ("123").data].indexOf (("2014").data) + 1 <
          [("Robbery").data, ("2014").data, ("123").data].length then
        [("Robbery").data, ("2014").data, ("123").data].getD
          ([("Robbery").data, ("2014").data, ("123").data].indexOf (("2014").data) + 1) []
      else [("Robbery").data, ("2014").data, ("123").data].getD 0 []) :=
  claim_C6 [("Robbery").data, ("2014").data, ("123").data] (by decide) (by decide)
    (("2014").data) [] (by decide)

/-! ## The whole-text scan on the C7 scenario (claim C7) -/

/-- Counterexample to C7 as stated: on the input
`Robbery totals: 2014 had about 120 incidents, 2015 had 98` the extraction
result is the single row `(2015, 98)`, not the claimed two rows: the digit run
`120` sits 11 non-digit characters after `2014`, beyond the 10-character bound
of the pattern `(\d{4})[^\d]{0,10}(\d+)`. -/
theorem claim_C7_counterexample :
    extract (("Robbery totals: 2014 had about 120 incidents, 2015 had 98").data) =
      ExtractionResult.rows [(("2015").data, ("98").data)] ∧
    extract (("Robbery totals: 2014 had about 120 incidents, 2015 had 98").data) ≠
      ExtractionResult.rows
        [(("2014").data, ("120").data), (("2015").data, ("98").data)] := by
  constructor
  · decide
  · decide

/-- C7 (amended): on that input the per-line pass yields nothing, and the
whole-text fallback recovers exactly the row `(2015, 98)` — the first digit
run within at most 10 non-digit characters after a 4-digit year; the pair
`(2014, 120)` is not recovered because its gap is 11 characters. -/
theorem claim_C7 :
    parseLines (sanitize_response_text
      (("Robbery totals: 2014 had about 120 incidents, 2015 had 98").data)) = [] ∧
    findAllPairs (sanitize_response_text
      (("Robbery totals: 2014 had about 120 incidents, 2015 had 98").data)) =
      [(("2015").data, ("98").data)] ∧
    extract (("Robbery totals: 2014 had about 120 incidents, 2015 had 98").data) =
      ExtractionResult.rows [(("2015").data, ("98").data)] := by
  refine ⟨?_, ?_, ?_⟩
  · decide
  · decide
  · decide

/-! ## Newline-bullet merging (claim C10) -/

/-- C10: separator normalization treats newlines as whitespace around `-`:
no `-` at all survives sanitization (so the per-line bullet strip never sees a
`-` bullet); a line-leading `- ` bullet after a newline is replaced, together
with the newline, by one comma, merging the bulleted line into the previous
one; consequently `2014,120\n- 2015,98` extracts to the single row
`(2014, 120)` and `(2015, 98)` is lost. -/
theorem claim_C10 :
    (∀ t : List Char, ∀ c ∈ sanitize_response_text t, c ≠ '-') ∧
    (∀ A B : List Char, A ≠ [] → B ≠ [] →
      (∀ c ∈ A, plainChar c = true) → (∀ c ∈ B, plainChar c = true) →
      sanitize_response_text (A ++ ('\n' :: '-' :: ' ' :: B)) =
        sanitize_response_text (A ++ ',' :: B)) ∧
    extract (("2014,120\n- 2015,98").data) =
      ExtractionResult.rows [(("2014").data, ("120").data)] := by
  refine ⟨?_, ?_, ?_⟩
  · intro t c hc he
    have hs := sep_sub_no_sep (stripEnds isOuterStrip (fence_sub t)) c hc
    rw [he] at hs
    exact absurd hs (by decide)
  · intro A B hA hB hpA hpB
    have hAP : ∀ c ∈ A, pySpace c = false ∧ isSepChar c = false :=
      fun c hc => ⟨plain_not_space (hpA c hc), plain_not_sep (hpA c hc)⟩
    have hBP : ∀ c ∈ B, pySpace c = false ∧ isSepChar c = false :=
      fun c hc => ⟨plain_not_space (hpB c hc), plain_not_sep (hpB c hc)⟩
    have hBhead : ∀ d, B.head? = some d → pySpace d = false :=
      fun d hd => plain_not_space (hpB d (List.mem_of_mem_head? hd))
    have hbqL : ∀ c ∈ A ++ ('\n' :: '-' :: ' ' :: B), c ≠ '`' := by
      intro c hc
      rcases List.mem_append.mp hc with h | h
      · exact not_bq_ne (plain_not_bq (hpA c h))
      · rcases List.mem_cons.mp h with h | h
        · subst h; decide
        · rcases List.mem_cons.mp h with h | h
          · subst h; decide
          · rcases List.mem_cons.mp h with h | h
            · subst h; decide
            · exact not_bq_ne (plain_not_bq (hpB c h))
    have hbqR : ∀ c ∈ A ++ ',' :: B, c ≠ '`' := by
      intro c hc
      rcases List.mem_append.mp hc with h | h
      · exact not_bq_ne (plain_not_bq (hpA c h))
      · rcases List.mem_cons.mp h with h | h
        · subst h; decide
        · exact not_bq_ne (plain_not_bq (hpB c h))
    have hheadL : ∀ c, (A ++ ('\n' :: '-' :: ' ' :: B)).head? = some c →
        isOuterStrip c = false := by
      intro c hc
      rw [List.head?_append_of_ne_nil _ hA] at hc
      exact plain_not_outer (hpA c (List.mem_of_mem_head? hc))
    have hheadR : ∀ c, (A ++ ',' :: B).head? = some c → isOuterStrip c = false := by
      intro c hc
      rw [List.head?_append_of_ne_nil _ hA] at hc
      exact plain_not_outer (hpA c (List.mem_of_mem_head? hc))
    have hlastL : ∀ c, (A ++ ('\n' :: '-' :: ' ' :: B)).getLast? = some c →
        isOuterStrip c = false := by
      intro c hc
      rw [show A ++ ('\n' :: '-' :: ' ' :: B) = (A ++ ['\n', '-', ' ']) ++ B by simp] at hc
      rw [List.getLast?_append_of_ne_nil _ hB] at hc
      exact plain_not_outer (hpB c (List.mem_of_mem_getLast? hc))
    have hlastR : ∀ c, (A ++ ',' :: B).getLast? = some c → isOuterStrip c = false := by
      intro c hc
      rw [List.getLast?_append_cons, getLast?_cons_ne ',' hB] at hc
      exact plain_not_outer (hpB c (List.mem_of_mem_getLast? hc))
    have hsepL : sep_sub (A ++ ('\n' :: '-' :: ' ' :: B)) = A ++ ',' :: B := by
      rw [sep_sub, sepAux_plain A hAP]
      have h1 : sepAux false ([] : List Char) ('\n' :: '-' :: ' ' :: B) = ',' :: B := by
        rw [sepAux]
        simp only [show isSepChar '\n' = false from rfl, Bool.false_eq_true, if_false,
          show pySpace '\n' = true from rfl, if_true]
        rw [sepAux]
        simp only [show isSepChar '-' = true from rfl, if_true]
        rw [sepAux]
        simp only [show isSepChar ' ' = false from rfl, Bool.false_eq_true, if_false,
          show pySpace ' ' = true from rfl, if_true]
        rw [sepAux_skip_exit B hBhead]
        have h2 := sepAux_plain B hBP []
        rw [show sepAux false ([] : List Char) [] = [] from rfl, List.append_nil] at h2
        rw [h2]
      rw [h1]
    have hsepR : sep_sub (A ++ ',' :: B) = A ++ ',' :: B := by
      apply sep_sub_id_of_no_sep
      intro c hc
      rcases List.mem_append.mp hc with h | h
      · exact (hAP c h).2
      · rcases List.mem_cons.mp h with h | h
        · subst h; decide
        · exact (hBP c h).2
    rw [sanitize_response_text, sanitize_response_text,
      fence_sub_no_bq hbqL, fence_sub_no_bq hbqR,
      stripEnds_eq_self _ _ hheadL hlastL, stripEnds_eq_self _ _ hheadR hlastR,
      hsepL, hsepR]
  · decide

/-- Witness for the newline-bullet merge of C10 at a concrete pair of texts. -/
theorem claim_C10_witness :
    sanitize_response_text ((("a").data) ++ ('\n' :: '-' :: ' ' :: (("b").data))) =
      sanitize_response_text ((("a").data) ++ ',' :: (("b").data)) :=
  claim_C10.2.1 (("a").data) (("b").data) (by decide) (by decide) (by decide) (by decide)

/-! ## Four-digit-run reasoning (claim C3) -/

theorem infix_trans {s m t : List Char} (h1 : ∃ a b, m = a ++ s ++ b)
    (h2 : ∃ a b, t = a ++ m ++ b) : ∃ a b, t = a ++ s ++ b := by
  obtain ⟨a1, b1, rfl⟩ := h1
  obtain ⟨a2, b2, rfl⟩ := h2
  exact ⟨a2 ++ a1, b1 ++ b2, by simp⟩

theorem has4Run_tail {c : Char} {l : List Char} (h : has4Run (c :: l) = false) :
    has4Run l = false := by
  cases hl : has4Run l
  · rfl
  · exfalso
    rcases l with _ | ⟨b, _ | ⟨d, _ | ⟨e, rest⟩⟩⟩
    · simp [has4Run] at hl
    · simp [has4Run] at hl
    · simp [has4Run] at hl
    · rw [has4Run, hl] at h
      simp at h

theorem has4Run_cons {c : Char} {l : List Char} (h : has4Run l = true) :
    has4Run (c :: l) = true := by
  cases hc : has4Run (c :: l)
  · rw [has4Run_tail hc] at h
    exact Bool.noConfusion h
  · rfl

theorem has4Run_append_right {l : List Char} (m : List Char) :
    has4Run l = true → has4Run (l ++ m) = true := by
  induction l with
  | nil => intro h; exact absurd h (by simp [has4Run])
  | cons c cs ih =>
    intro h
    rcases cs with _ | ⟨b, _ | ⟨d, _ | ⟨e, rest⟩⟩⟩
    · exact absurd h (by simp [has4Run])
    · exact absurd h (by simp [has4Run])
    · exact absurd h (by simp [has4Run])
    · rw [has4Run, Bool.or_eq_true] at h
      rcases h with h | h
      · rw [List.cons_append]
        simp [has4Run, h]
      · exact has4Run_cons (ih h)

theorem has4Run_of_infix {s t : List Char} (h : ∃ a b, t = a ++ s ++ b)
    (hs : has4Run s = true) : has4Run t = true := by
  obtain ⟨a, b, rfl⟩ := h
  have h1 : has4Run (s ++ b) = true := has4Run_append_right b hs
  clear hs
  induction a with
  | nil => simpa using h1
  | cons c a2 ih => exact has4Run_cons ih

theorem is4digit_has4Run {y : List Char} (h : is4digit y = true) : has4Run y = true := by
  simp only [is4digit, Bool.and_eq_true, beq_iff_eq, List.all_eq_true] at h
  obtain ⟨hlen, hall⟩ := h
  rcases y with _ | ⟨a, _ | ⟨b, _ | ⟨c, _ | ⟨d, rest⟩⟩⟩⟩
  · simp at hlen
  · simp at hlen
  · simp at hlen
  · simp at hlen
  · rw [has4Run]
    have ha := hall a (by simp)
    have hb := hall b (by simp)
    have hc := hall c (by simp)
    have hd := hall d (by simp)
    simp [ha, hb, hc, hd]

theorem findAllPairsF_nil :
    ∀ (n : Nat) (l : List Char), has4Run l = false → findAllPairsF n l = [] := by
  intro n
  induction n with
  | zero => intro l _; rfl
  | succ n ih =>
    intro l h
    rcases l with _ | ⟨a, _ | ⟨b, _ | ⟨c, _ | ⟨d, rest⟩⟩⟩⟩
    · rfl
    · rfl
    · rfl
    · rfl
    · rw [findAllPairsF]
      have hcond : (isDig a && isDig b && isDig c && isDig d) = false := by
        rw [has4Run] at h
        exact (Bool.or_eq_false_iff.mp h).1
      rw [if_neg (by rw [hcond]; exact Bool.false_ne_true)]
      exact ih _ (has4Run_tail h)

/-! ## Every parsed token sits inside the text -/

set_option maxHeartbeats 2000000 in
theorem splitlinesAux_cons_r (acc : List Char) (d : Char) (cs : List Char) (hd : d ≠ '\n') :
    splitlinesAux acc ('\r' :: d :: cs) = acc.reverse :: splitlinesAux [] (d :: cs) := by
  rw [splitlinesAux.eq_def]
  split
  · rename_i heq
    injection heq with h1 h2
    injection h2 with h3 _
    exact absurd h3 hd
  · rename_i heq
    injection heq with h1 h2
    subst h1
    subst h2
    simp [show isLineBreakChar '\x0d' = true from rfl]
  · rename_i heq
    exact absurd heq (by simp)

theorem splitlinesAux_infix :
    ∀ (n : Nat) (t acc l : List Char), t.length ≤ n → l ∈ splitlinesAux acc t →
      ∃ a b, acc.reverse ++ t = a ++ l ++ b := by
  intro n
  induction n with
  | zero =>
    intro t acc l ht hl
    have h0 : t = [] := List.length_eq_zero.mp (Nat.le_zero.mp ht)
    subst h0
    rw [show splitlinesAux acc [] = if acc.isEmpty then [] else [acc.reverse] from rfl] at hl
    split at hl
    · simp at hl
    · rw [List.mem_singleton] at hl
      subst hl
      exact ⟨[], [], by simp⟩
  | succ n ih =>
    intro t acc l ht hl
    rcases t with _ | ⟨c, cs⟩
    · rw [show splitlinesAux acc [] = if acc.isEmpty then [] else [acc.reverse] from rfl] at hl
      split at hl
      · simp at hl
      · rw [List.mem_singleton] at hl
        subst hl
        exact ⟨[], [], by simp⟩
    · by_cases hc : c = '\r'
      · subst hc
        rcases cs with _ | ⟨d, cs2⟩
        · rw [show splitlinesAux acc ['\r'] =
              acc.reverse :: splitlinesAux [] [] from rfl] at hl
          rw [show splitlinesAux ([] : List Char) [] = [] from rfl] at hl
          rw [List.mem_singleton] at hl
          subst hl
          exact ⟨[], ['\r'], by simp⟩
        · by_cases hd : d = '\n'
          · subst hd
            rw [show splitlinesAux acc ('\r' :: '\n' :: cs2) =
                acc.reverse :: splitlinesAux [] cs2 from rfl] at hl
            rcases List.mem_cons.mp hl with h | h
            · subst h
              exact ⟨[], '\r' :: '\n' :: cs2, by simp⟩
            · obtain ⟨a, b, hab⟩ := ih cs2 [] l (by simp at ht; omega) h
              simp only [List.reverse_nil, List.nil_append] at hab
              exact ⟨acc.reverse ++ '\r' :: '\n' :: a, b, by simp [hab]⟩
          · rw [splitlinesAux_cons_r acc d cs2 hd] at hl
            rcases List.mem_cons.mp hl with h | h
            · subst h
              exact ⟨[], '\r' :: d :: cs2, by simp⟩
            · obtain ⟨a, b, hab⟩ := ih (d :: cs2) [] l (by simp at ht ⊢; omega) h
              simp only [List.reverse_nil, List.nil_append] at hab
              exact ⟨acc.reverse ++ '\r' :: a, b, by simp [hab]⟩
      · rw [splitlinesAux_cons acc c cs hc] at hl
        split at hl
        · rcases List.mem_cons.mp hl with h | h
          · subst h
            exact ⟨[], c :: cs, by simp⟩
          · obtain ⟨a, b, hab⟩ := ih cs [] l (by simp at ht; omega) h
            simp only [List.reverse_nil, List.nil_append] at hab
            exact ⟨acc.reverse ++ c :: a, b, by simp [hab]⟩
        · obtain ⟨a, b, hab⟩ := ih cs (c :: acc) l (by simp at ht; omega) hl
          rw [List.reverse_cons, List.append_assoc] at hab
          exact ⟨a, b, by simpa using hab⟩

theorem pySplitlines_infix {t l : List Char} (h : l ∈ pySplitlines t) :
    ∃ a b, t = a ++ l ++ b := by
  have := splitlinesAux_infix t.length t [] l (le_refl _) h
  simpa using this

theorem pyStrip_occurs (l : List Char) : ∃ a b, l = a ++ pyStrip l ++ b := by
  obtain ⟨a, b, h, _, _⟩ := stripEnds_decomp pySpace l
  exact ⟨a, b, h⟩

theorem stripBullet_occurs (l : List Char) : ∃ a b, l = a ++ stripBullet l ++ b := by
  rcases l with _ | ⟨c, cs⟩
  · exact ⟨[], [], rfl⟩
  · rw [show stripBullet (c :: cs) =
        if c = '-' || c = '*' || c = '•' then cs.dropWhile pySpace else c :: cs from rfl]
    split_ifs with h
    · refine ⟨c :: cs.takeWhile pySpace, [], ?_⟩
      simp [List.takeWhile_append_dropWhile]
    · exact ⟨[], [], by simp⟩

theorem splitOnComma_head_pre :
    ∀ cs : List Char, ∃ h t b, splitOnComma cs = h :: t ∧ cs = h ++ b := by
  intro cs
  induction cs with
  | nil => exact ⟨[], [], [], rfl, rfl⟩
  | cons c cs2 ih =>
    by_cases hc : c = ','
    · subst hc
      exact ⟨[], splitOnComma cs2, ',' :: cs2, rfl, rfl⟩
    · obtain ⟨h, t, b, hsp, hcs⟩ := ih
      refine ⟨c :: h, t, b, ?_, by rw [hcs]; rfl⟩
      have hstep : splitOnComma (c :: cs2) = consHead c (splitOnComma cs2) := by
        rw [show splitOnComma (c :: cs2) =
            if c = ',' then [] :: splitOnComma cs2 else consHead c (splitOnComma cs2) from rfl,
          if_neg hc]
      rw [hstep, hsp]
      rfl

theorem splitOnComma_occurs :
    ∀ (l q : List Char), q ∈ splitOnComma l → ∃ a b, l = a ++ q ++ b := by
  intro l
  induction l with
  | nil =>
    intro q hq
    simp [splitOnComma] at hq
    subst hq
    exact ⟨[], [], rfl⟩
  | cons c cs ih =>
    intro q hq
    by_cases hc : c = ','
    · subst hc
      rw [show splitOnComma (',' :: cs) = [] :: splitOnComma cs from rfl] at hq
      rcases List.mem_cons.mp hq with h | h
      · subst h
        exact ⟨[], ',' :: cs, rfl⟩
      · obtain ⟨a, b, hab⟩ := ih q h
        exact ⟨',' :: a, b, by rw [hab]; rfl⟩
    · have hstep : splitOnComma (c :: cs) = consHead c (splitOnComma cs) := by
        rw [show splitOnComma (c :: cs) =
            if c = ',' then [] :: splitOnComma cs else consHead c (splitOnComma cs) from rfl,
          if_neg hc]
      obtain ⟨h, t, b0, hsp, hcs⟩ := splitOnComma_head_pre cs
      rw [hstep, hsp] at hq
      rw [show consHead c (h :: t) = (c :: h) :: t from rfl] at hq
      rcases List.mem_cons.mp hq with h2 | h2
      · subst h2
        exact ⟨[], b0, by rw [hcs]; rfl⟩
      · have hmem : q ∈ splitOnComma cs := by
          rw [hsp]
          exact List.mem_cons_of_mem _ h2
        obtain ⟨a, b, hab⟩ := ih q hmem
        exact ⟨c :: a, b, by rw [hab]; rfl⟩

theorem wordsAux_occurs :
    ∀ (l acc q : List Char), q ∈ wordsAux acc l → ∃ a b, acc.reverse ++ l = a ++ q ++ b := by
  intro l
  induction l with
  | nil =>
    intro acc q hq
    rw [show wordsAux acc [] = if acc.isEmpty then [] else [acc.reverse] from rfl] at hq
    split_ifs at hq
    · simp at hq
    · rw [List.mem_singleton] at hq
      subst hq
      exact ⟨[], [], by simp⟩
  | cons c cs ih =>
    intro acc q hq
    rw [show wordsAux acc (c :: cs) =
        if pySpace c then
          (if acc.isEmpty then wordsAux [] cs else acc.reverse :: wordsAux [] cs)
        else wordsAux (c :: acc) cs from rfl] at hq
    split_ifs at hq with hws hemp
    · obtain ⟨a, b, hab⟩ := ih [] q hq
      simp only [List.reverse_nil, List.nil_append] at hab
      refine ⟨acc.reverse ++ c :: a, b, ?_⟩
      rw [hab]
      simp
    · rcases List.mem_cons.mp hq with h | h
      · subst h
        exact ⟨[], c :: cs, by simp⟩
      · obtain ⟨a, b, hab⟩ := ih [] q h
        simp only [List.reverse_nil, List.nil_append] at hab
        refine ⟨acc.reverse ++ c :: a, b, ?_⟩
        rw [hab]
        simp
    · obtain ⟨a, b, hab⟩ := ih (c :: acc) q hq
      simp only [List.reverse_cons] at hab
      refine ⟨a, b, ?_⟩
      rw [← hab]
      simp

theorem tokenize_occurs {line q : List Char} (hq : q ∈ tokenize line) :
    ∃ a b, line = a ++ q ++ b := by
  rw [tokenize] at hq
  split_ifs at hq with hc
  · obtain ⟨hmem, _⟩ := List.mem_filter.mp hq
    obtain ⟨q0, hq0, rfl⟩ := List.mem_map.mp hmem
    exact infix_trans (pyStrip_occurs q0) (splitOnComma_occurs line q0 hq0)
  · have := wordsAux_occurs line [] q hq
    simpa using this

theorem getD_mem_of_lt :
    ∀ (l : List (List Char)) (i : Nat), i < l.length → l.getD i [] ∈ l := by
  intro l
  induction l with
  | nil =>
    intro i hi
    simp at hi
  | cons x xs ih =>
    intro i hi
    cases i with
    | zero => simp
    | succ j =>
      have hj : j < xs.length := by simpa using hi
      simp only [List.getD_cons_succ]
      exact List.mem_cons_of_mem _ (ih j hj)

theorem processParts_mem {parts : List (List Char)} {y v : List Char}
    (h : processParts parts = some (y, v)) : y ∈ parts := by
  rw [processParts] at h
  split_ifs at h with h2
  · by_cases h4 : is4digit (parts.getD 0 []) = true
    · rw [if_pos h4] at h
      simp only [Option.some_inj, Prod.mk.injEq] at h
      rw [← h.1]
      exact getD_mem_of_lt parts 0 (by omega)
    · rw [if_neg h4] at h
      rcases hf : parts.filter is4digit with _ | ⟨y0, ys⟩
      · simp only [hf] at h
        exact Option.noConfusion h
      · simp only [hf] at h
        have hy0 : y0 ∈ parts := by
          have hm : y0 ∈ parts.filter is4digit := by rw [hf]; simp
          exact (List.mem_filter.mp hm).1
        by_cases hm2 : y0 ∈ parts
        · rw [if_pos hm2] at h
          simp only [Option.some_inj, Prod.mk.injEq] at h
          rw [← h.1]
          exact hy0
        · exact absurd hy0 hm2

theorem parseLines_nil_of_no4run {t : List Char} (h : has4Run t = false) :
    parseLines t = [] := by
  rw [parseLines, List.filterMap_eq_nil_iff]
  intro raw hraw
  cases hp : processLine raw with
  | none => rfl
  | some p =>
    exfalso
    obtain ⟨y, v, rfl⟩ : ∃ y v, p = (y, v) := ⟨p.1, p.2, rfl⟩
    rw [processLine] at hp
    split_ifs at hp
    have hy4 := processParts_year hp
    have hymem := processParts_mem hp
    have h1 : ∃ a b, stripBullet (pyStrip raw) = a ++ y ++ b := tokenize_occurs hymem
    have h2 : ∃ a b, pyStrip raw = a ++ stripBullet (pyStrip raw) ++ b :=
      stripBullet_occurs (pyStrip raw)
    have h3 : ∃ a b, raw = a ++ pyStrip raw ++ b := pyStrip_occurs raw
    have h4 : ∃ a b, t = a ++ raw ++ b := pySplitlines_infix hraw
    have hyt : ∃ a b, t = a ++ y ++ b :=
      infix_trans (infix_trans (infix_trans h1 h2) h3) h4
    have hrun := has4Run_of_infix hyt (is4digit_has4Run hy4)
    rw [h] at hrun
    exact Bool.noConfusion hrun

/-- C3 counterexample: for the nonempty input "no data - none" no candidate
row survives, and the fallback row holds the sanitized text "no data,none"
(the separator normalization already applied), not the original raw text. -/
theorem claim_C3_counterexample :
    extract ("no data - none").data = ExtractionResult.fallback ("no data,none").data ∧
    ExtractionResult.fallback ("no data,none").data ≠
      ExtractionResult.fallback ("no data - none").data := by
  constructor
  · decide
  · decide

/-- C3 (amended): for every non-empty input, whenever the per-line pass, the
whole-text regex fallback and the range filter together produce zero rows —
in particular whenever no run of four consecutive digits occurs anywhere in
the sanitized text — the result is exactly one fallback diagnostic row, and
that row contains the sanitized (normalized) text, not the original raw
text. -/
theorem claim_C3 :
    (∀ raw : List Char, raw ≠ [] →
        ((candidateRows (sanitize_response_text raw)).filter (fun r => yearOk r.1)) = [] →
        extract raw = ExtractionResult.fallback (sanitize_response_text raw)) ∧
    (∀ raw : List Char, raw ≠ [] →
        has4Run (sanitize_response_text raw) = false →
        extract raw = ExtractionResult.fallback (sanitize_response_text raw)) := by
  constructor
  · intro raw _ hfil
    simp [extract, write_csv_from_text, hfil]
  · intro raw _ hrun
    have hp : parseLines (sanitize_response_text raw) = [] := parseLines_nil_of_no4run hrun
    have hf : findAllPairsF (sanitize_response_text raw).length (sanitize_response_text raw)
        = [] := findAllPairsF_nil _ _ hrun
    have hc : candidateRows (sanitize_response_text raw) = [] := by
      simp [candidateRows, hp, findAllPairs, hf]
    simp [extract, write_csv_from_text, hc]

theorem claim_C3_witness :
    extract ("hello").data =
      ExtractionResult.fallback (sanitize_response_text ("hello").data) ∧
    extract ("abc").data =
      ExtractionResult.fallback (sanitize_response_text ("abc").data) :=
  ⟨claim_C3.2 ("hello").data (by decide)
      (by rw [show sanitize_response_text ("hello").data = ("hello").data from by decide]
          simp [has4Run, isDig]),
   claim_C3.1 ("abc").data (by decide) (by decide)⟩

/-! ## Idempotence of sanitization: Trip and Pat algebra -/

theorem trip_length {l : List Char} (h : Trip l) : 3 ≤ l.length := by
  obtain ⟨a, b, rfl⟩ := h
  simp [bq3]
  omega

theorem trip_append_right {l : List Char} (z : List Char) (h : Trip l) : Trip (l ++ z) := by
  obtain ⟨a, b, rfl⟩ := h
  exact ⟨a, b ++ z, by simp⟩

theorem trip_occurs {s t : List Char} (h : ∃ x y, t = x ++ s ++ y) (hs : Trip s) :
    Trip t := by
  obtain ⟨x, y, rfl⟩ := h
  obtain ⟨a, b, rfl⟩ := hs
  exact ⟨x ++ a, b ++ y, by simp⟩

theorem pat_cons {l : List Char} (c : Char) (h : Pat l) : Pat (c :: l) := by
  obtain ⟨a, b, d, rfl⟩ := h
  exact ⟨c :: a, b, d, rfl⟩

theorem pat_trip {l : List Char} (h : Pat l) : Trip l := by
  obtain ⟨a, b, d, rfl⟩ := h
  exact ⟨a, b ++ bq3 ++ d, by simp⟩

theorem pat_has_bq {l : List Char} (h : Pat l) : '`' ∈ l :=
  trip_has_bq (pat_trip h)

theorem pat_occurs {s t : List Char} (h : ∃ x y, t = x ++ s ++ y) (hp : Pat s) :
    Pat t := by
  obtain ⟨x, y, rfl⟩ := h
  obtain ⟨a, b, d, rfl⟩ := hp
  exact ⟨x ++ a, b, d ++ y, by simp⟩

theorem trip_cons_elim {c : Char} {l : List Char} (hc : c ≠ '`') (h : Trip (c :: l)) :
    Trip l := by
  obtain ⟨p, q, hpq⟩ := h
  rcases p with _ | ⟨pc, p'⟩
  · simp [bq3] at hpq
    exact absurd hpq.1 hc
  · rw [List.cons_append] at hpq
    injection hpq with _ h2
    exact ⟨p', q, h2⟩

theorem pat_cons_elim {c : Char} {l : List Char} (hc : c ≠ '`') (h : Pat (c :: l)) :
    Pat l := by
  obtain ⟨p, q, r, hpq⟩ := h
  rcases p with _ | ⟨pc, p'⟩
  · simp [bq3] at hpq
    exact absurd hpq.1 hc
  · rw [List.cons_append] at hpq
    injection hpq with _ h2
    exact ⟨p', q, r, h2⟩

theorem suffix_of_longer {x y u v : List Char} (h : x ++ u = y ++ v)
    (hlen : x.length ≤ y.length) : ∃ e, u = e ++ v := by
  rcases List.append_eq_append_iff.mp h with ⟨e, _, he2⟩ | ⟨e, he1, he2⟩
  · exact ⟨e, he2⟩
  · have hlen2 := congrArg List.length he1
    simp only [List.length_append] at hlen2
    have he : e = [] := List.length_eq_zero.mp (by omega)
    subst he
    exact ⟨[], by simpa using he2.symm⟩

theorem no_trip_of_pad {a : List Char} (h : ¬Trip (a ++ ['`', '`'])) : ¬Trip a :=
  fun ht => h (trip_append_right _ ht)

theorem lastNotBq_of_pad {a : List Char} (h : ¬Trip (a ++ ['`', '`'])) : lastNotBq a := by
  intro hlast
  rcases List.eq_nil_or_concat a with rfl | ⟨a', c, hac⟩
  · simp [List.getLast?] at hlast
  · rw [List.concat_eq_append] at hac
    subst hac
    rw [List.getLast?_concat] at hlast
    injection hlast with hc
    subst hc
    exact h ⟨a', [], by simp [bq3]⟩

theorem trip_split {X F : List Char} (hnt : ¬Trip X) (hlb : lastNotBq X)
    (h : Trip (X ++ F)) : Trip F := by
  obtain ⟨p, q, hpq⟩ := h
  rw [List.append_assoc] at hpq
  rcases List.append_eq_append_iff.mp hpq with ⟨e, _, he2⟩ | ⟨e, he1, he2⟩
  · exact ⟨e, q, by rw [List.append_assoc]; exact he2⟩
  · rcases List.append_eq_append_iff.mp he2 with ⟨e2, hf1, _⟩ | ⟨e2, hf1, hf2⟩
    · exact absurd ⟨p, e2, by rw [List.append_assoc, he1, hf1]⟩ hnt
    · rcases e with _ | ⟨c1, e'⟩
      · simp only [List.nil_append] at hf1
        exact ⟨[], q, by rw [hf2, ← hf1]; simp⟩
      · exfalso
        have hsub : ∀ x ∈ c1 :: e', x = '`' := by
          intro x hx
          have hxb : x ∈ bq3 := by
            rw [hf1]
            exact List.mem_append_left _ hx
          simpa [bq3] using hxb
        rcases List.eq_nil_or_concat (c1 :: e') with habs | ⟨L, b, hLb⟩
        · exact List.noConfusion habs
        · rw [List.concat_eq_append] at hLb
          apply hlb
          rw [he1, hLb, hsub b (by rw [hLb]; simp),
            show p ++ (L ++ ['`']) = (p ++ L) ++ ['`'] by simp]
          exact List.getLast?_concat _

theorem pat_split {X F : List Char} (hnt : ¬Trip X) (hlb : lastNotBq X)
    (h : Pat (X ++ F)) : Pat F := by
  obtain ⟨p, q, r, hpq⟩ := h
  simp only [List.append_assoc] at hpq
  rcases List.append_eq_append_iff.mp hpq with ⟨e, _, he2⟩ | ⟨e, he1, he2⟩
  · exact ⟨e, q, r, by simp only [List.append_assoc]; exact he2⟩
  · rcases List.append_eq_append_iff.mp he2 with ⟨e2, hf1, _⟩ | ⟨e2, hf1, hf2⟩
    · exact absurd ⟨p, e2, by rw [List.append_assoc, he1, hf1]⟩ hnt
    · rcases e with _ | ⟨c1, e'⟩
      · simp only [List.nil_append] at hf1
        exact ⟨[], q, r, by rw [hf2, ← hf1]; simp⟩
      · exfalso
        have hsub : ∀ x ∈ c1 :: e', x = '`' := by
          intro x hx
          have hxb : x ∈ bq3 := by
            rw [hf1]
            exact List.mem_append_left _ hx
          simpa [bq3] using hxb
        rcases List.eq_nil_or_concat (c1 :: e') with habs | ⟨L, b, hLb⟩
        · exact List.noConfusion habs
        · rw [List.concat_eq_append] at hLb
          apply hlb
          rw [he1, hLb, hsub b (by rw [hLb]; simp),
            show p ++ (L ++ ['`']) = (p ++ L) ++ ['`'] by simp]
          exact List.getLast?_concat _

theorem pat_bq3_trip {b : List Char} (h : Pat (bq3 ++ b)) : Trip b := by
  obtain ⟨p, q, r, hpq⟩ := h
  have h2 : bq3 ++ b = (p ++ bq3) ++ (q ++ (bq3 ++ r)) := by rw [hpq]; simp
  obtain ⟨e, he⟩ := suffix_of_longer h2 (by simp)
  exact ⟨e ++ q, r, by rw [he]; simp⟩

theorem sepAux_bq_pre :
    ∀ (k : Nat) (cs rest : List Char),
      sepAux false [] cs = List.replicate k '`' ++ rest →
      ∃ cs2, cs = List.replicate k '`' ++ cs2 ∧ sepAux false [] cs2 = rest := by
  intro k
  induction k with
  | zero =>
    intro cs rest h
    exact ⟨cs, by simp, by simpa using h⟩
  | succ k ih =>
    intro cs rest h
    rcases cs with _ | ⟨c, cs'⟩
    · rw [show sepAux false ([] : List Char) [] = [] from rfl,
        List.replicate_succ, List.cons_append] at h
      exact List.noConfusion h
    · by_cases hs : isSepChar c = true
      · rw [show sepAux false [] (c :: cs') = ',' :: sepAux true [] cs' from by
            rw [sepAux]; simp [hs]] at h
        rw [List.replicate_succ, List.cons_append] at h
        injection h with h1 _
        exact absurd h1 (by decide)
      · by_cases hw : pySpace c = true
        · exfalso
          rw [show sepAux false [] (c :: cs') = sepAux false [c] cs' from by
              rw [sepAux]; simp [hs, hw]] at h
          have hh := sepAux_head cs' [c]
          rw [h, List.replicate_succ, List.cons_append] at hh
          rcases hh with hh | hh
          · simp at hh
          · simp at hh
            have hbq := space_not_bq hw
            rw [← hh] at hbq
            simp [isBacktick] at hbq
        · rw [show sepAux false [] (c :: cs') = c :: sepAux false [] cs' from by
              rw [sepAux]; simp [hs, hw]] at h
          rw [List.replicate_succ, List.cons_append] at h
          injection h with h1 h2
          obtain ⟨cs2, hcs2, hrest⟩ := ih cs' rest h2
          exact ⟨cs2, by rw [List.replicate_succ, List.cons_append, hcs2, h1], hrest⟩

theorem sepAux_trip :
    ∀ (cs : List Char) (skip : Bool) (pending : List Char),
      (∀ c ∈ pending, pySpace c = true) →
      Trip (sepAux skip pending cs) → Trip cs := by
  intro cs
  induction cs with
  | nil =>
    intro skip pending hp h
    rw [show sepAux skip pending [] = pending.reverse from rfl] at h
    have hb := trip_has_bq h
    rw [List.mem_reverse] at hb
    exact absurd (hp '`' hb) (by decide)
  | cons c cs' ih =>
    intro skip pending hp h
    by_cases hs : isSepChar c = true
    · rw [show sepAux skip pending (c :: cs') = ',' :: sepAux true [] cs' from by
          rw [sepAux]; simp [hs]] at h
      exact trip_cons c (ih true [] (by simp) (trip_cons_elim (by decide) h))
    · by_cases hw : pySpace c = true
      · cases skip with
        | true =>
          rw [show sepAux true pending (c :: cs') = sepAux true [] cs' from by
              rw [sepAux]; simp [hs, hw]] at h
          exact trip_cons c (ih true [] (by simp) h)
        | false =>
          rw [show sepAux false pending (c :: cs') = sepAux false (c :: pending) cs' from by
              rw [sepAux]; simp [hs, hw]] at h
          refine trip_cons c (ih false (c :: pending) ?_ h)
          intro d hd
          rcases List.mem_cons.mp hd with rfl | hd2
          · exact hw
          · exact hp d hd2
      · rw [show sepAux skip pending (c :: cs')
            = pending.reverse ++ (c :: sepAux false [] cs') from by
            rw [sepAux]; simp [hs, hw]] at h
        have hX1 : ¬Trip pending.reverse := by
          intro ht
          have hb := trip_has_bq ht
          rw [List.mem_reverse] at hb
          exact absurd (hp '`' hb) (by decide)
        have hX2 : lastNotBq pending.reverse := by
          intro hl
          rcases List.eq_nil_or_concat pending.reverse with hr | ⟨L, b, hLb⟩
          · rw [hr] at hl
            simp [List.getLast?] at hl
          · rw [List.concat_eq_append] at hLb
            rw [hLb, List.getLast?_concat] at hl
            injection hl with hb
            have hmem : '`' ∈ pending.reverse := by
              rw [hLb, ← hb]
              simp
            rw [List.mem_reverse] at hmem
            exact absurd (hp '`' hmem) (by decide)
        have h3 : Trip (c :: sepAux false [] cs') := trip_split hX1 hX2 h
        obtain ⟨p, q, hpq⟩ := h3
        rcases p with _ | ⟨pc, p'⟩
        · have hpq2 : c :: sepAux false [] cs' = '`' :: ('`' :: '`' :: q) := by
            rw [hpq]
            simp [bq3]
          injection hpq2 with hc hY
          obtain ⟨cs2, hcs2, _⟩ := sepAux_bq_pre 2 cs' q (by rw [hY]; rfl)
          refine ⟨[], cs2, ?_⟩
          rw [hc, hcs2]
          simp [bq3]
        · have hpq2 : c :: sepAux false [] cs' = pc :: (p' ++ bq3 ++ q) := by
            rw [hpq]
            simp
          injection hpq2 with _ h2
          exact trip_cons c (ih false [] (by simp) ⟨p', q, h2⟩)

theorem sepAux_pat :
    ∀ (cs : List Char) (skip : Bool) (pending : List Char),
      (∀ c ∈ pending, pySpace c = true) →
      Pat (sepAux skip pending cs) → Pat cs := by
  intro cs
  induction cs with
  | nil =>
    intro skip pending hp h
    rw [show sepAux skip pending [] = pending.reverse from rfl] at h
    have hb := pat_has_bq h
    rw [List.mem_reverse] at hb
    exact absurd (hp '`' hb) (by decide)
  | cons c cs' ih =>
    intro skip pending hp h
    by_cases hs : isSepChar c = true
    · rw [show sepAux skip pending (c :: cs') = ',' :: sepAux true [] cs' from by
          rw [sepAux]; simp [hs]] at h
      exact pat_cons c (ih true [] (by simp) (pat_cons_elim (by decide) h))
    · by_cases hw : pySpace c = true
      · cases skip with
        | true =>
          rw [show sepAux true pending (c :: cs') = sepAux true [] cs' from by
              rw [sepAux]; simp [hs, hw]] at h
          exact pat_cons c (ih true [] (by simp) h)
        | false =>
          rw [show sepAux false pending (c :: cs') = sepAux false (c :: pending) cs' from by
              rw [sepAux]; simp [hs, hw]] at h
          refine pat_cons c (ih false (c :: pending) ?_ h)
          intro d hd
          rcases List.mem_cons.mp hd with rfl | hd2
          · exact hw
          · exact hp d hd2
      · rw [show sepAux skip pending (c :: cs')
            = pending.reverse ++ (c :: sepAux false [] cs') from by
            rw [sepAux]; simp [hs, hw]] at h
        have hX1 : ¬Trip pending.reverse := by
          intro ht
          have hb := trip_has_bq ht
          rw [List.mem_reverse] at hb
          exact absurd (hp '`' hb) (by decide)
        have hX2 : lastNotBq pending.reverse := by
          intro hl
          rcases List.eq_nil_or_concat pending.reverse with hr | ⟨L, b, hLb⟩
          · rw [hr] at hl
            simp [List.getLast?] at hl
          · rw [List.concat_eq_append] at hLb
            rw [hLb, List.getLast?_concat] at hl
            injection hl with hb
            have hmem : '`' ∈ pending.reverse := by
              rw [hLb, ← hb]
              simp
            rw [List.mem_reverse] at hmem
            exact absurd (hp '`' hmem) (by decide)
        have h3 : Pat (c :: sepAux false [] cs') := pat_split hX1 hX2 h
        obtain ⟨p, q, r, hpq⟩ := h3
        rcases p with _ | ⟨pc, p'⟩
        · have hpq2 : c :: sepAux false [] cs'
              = '`' :: ('`' :: '`' :: (q ++ bq3 ++ r)) := by
            rw [hpq]
            simp [bq3]
          injection hpq2 with hc hY
          obtain ⟨cs2, hcs2, hout⟩ := sepAux_bq_pre 2 cs' (q ++ bq3 ++ r)
            (by rw [hY]; rfl)
          have htr : Trip cs2 := by
            refine sepAux_trip cs2 false [] (by simp) ?_
            rw [hout]
            exact ⟨q, r, rfl⟩
          obtain ⟨q2, r2, hq2⟩ := htr
          refine ⟨[], q2, r2, ?_⟩
          rw [hc, hcs2, hq2]
          simp [bq3]
        · have hpq2 : c :: sepAux false [] cs'
              = pc :: (p' ++ bq3 ++ q ++ bq3 ++ r) := by
            rw [hpq]
            simp
          injection hpq2 with _ h2
          exact pat_cons c (ih false [] (by simp) ⟨p', q, r, h2⟩)

theorem sep_sub_pat {l : List Char} (h : Pat (sep_sub l)) : Pat l :=
  sepAux_pat l false [] (by simp) h

theorem splitTripleAux_scan_bq3 :
    ∀ (a : List Char), ¬Trip (a ++ ['`', '`']) →
      ∀ (acc b : List Char),
        splitTripleAux acc (a ++ bq3 ++ b) = (acc.reverse ++ a) :: splitTripleAux [] b := by
  intro a
  induction a with
  | nil =>
    intro _ acc b
    rw [show ([] : List Char) ++ bq3 ++ b = '`' :: '`' :: '`' :: b from rfl]
    rw [splitTripleAux.eq_def]
    split
    · rename_i rest heq
      injection heq with _ heq1
      injection heq1 with _ heq2
      injection heq2 with _ heq3
      rw [heq3]
      simp
    · rename_i hno heq
      injection heq with h1 h2
      exact (hno b h1.symm h2.symm).elim
    · rename_i heq
      exact absurd heq (by simp)
  | cons c a' ih =>
    intro h acc b
    rw [show (c :: a') ++ bq3 ++ b = c :: (a' ++ bq3 ++ b) from by simp]
    rw [splitTripleAux.eq_def]
    split
    · rename_i rest heq
      exfalso
      apply h
      injection heq with h1 h2
      rcases a' with _ | ⟨x, a''⟩
      · subst h1
        exact ⟨[], [], rfl⟩
      · rw [show (x :: a'') ++ bq3 ++ b = x :: (a'' ++ bq3 ++ b) from by simp] at h2
        injection h2 with h3 h4
        subst h1
        subst h3
        rcases a'' with _ | ⟨y, a3⟩
        · exact ⟨[], ['`'], rfl⟩
        · rw [show (y :: a3) ++ bq3 ++ b = y :: (a3 ++ bq3 ++ b) from by simp] at h4
          injection h4 with h5 _
          subst h5
          exact ⟨[], a3 ++ ['`', '`'], by simp [bq3]⟩
    · rename_i hno heq
      injection heq with h1 h2
      subst h1
      subst h2
      rw [ih (fun ht => h (trip_cons c ht)) _ b]
      simp
    · rename_i heq
      exact absurd heq (by simp)

theorem trip_leftmost :
    ∀ l : List Char, Trip l → ∃ a b, l = a ++ bq3 ++ b ∧ ¬Trip (a ++ ['`', '`']) := by
  intro l
  induction l with
  | nil =>
    intro h
    exact absurd (trip_length h) (by simp)
  | cons c cs ih =>
    intro h
    rcases cs with _ | ⟨c2, cs2⟩
    · exact absurd (trip_length h) (by simp)
    rcases cs2 with _ | ⟨c3, cs3⟩
    · exact absurd (trip_length h) (by simp)
    by_cases hb : c = '`' ∧ c2 = '`' ∧ c3 = '`'
    · obtain ⟨rfl, rfl, rfl⟩ := hb
      refine ⟨[], cs3, rfl, ?_⟩
      intro ht
      exact absurd (trip_length ht) (by decide)
    · have h2 : Trip (c2 :: c3 :: cs3) := by
        obtain ⟨p, q, hpq⟩ := h
        rcases p with _ | ⟨pc, p'⟩
        · exfalso
          apply hb
          have hpq2 : c :: c2 :: c3 :: cs3 = '`' :: '`' :: '`' :: q := by
            rw [hpq]
            simp [bq3]
          injection hpq2 with e1 hpq3
          injection hpq3 with e2 hpq4
          injection hpq4 with e3 _
          exact ⟨e1, e2, e3⟩
        · have hpq2 : c :: c2 :: c3 :: cs3 = pc :: (p' ++ bq3 ++ q) := by
            rw [hpq]
            simp
          injection hpq2 with _ h2'
          exact ⟨p', q, h2'⟩
      obtain ⟨a', b, hcs, hna⟩ := ih h2
      refine ⟨c :: a', b, by rw [show (c :: a') ++ bq3 ++ b = c :: (a' ++ bq3 ++ b) from
        by simp, ← hcs], ?_⟩
      intro ht
      obtain ⟨p, q, hpq⟩ := ht
      rcases p with _ | ⟨pc, p'⟩
      · have hpq2 : c :: (a' ++ ['`', '`']) = '`' :: '`' :: '`' :: q := by
          have : (c :: a') ++ ['`', '`'] = c :: (a' ++ ['`', '`']) := by simp
          rw [← this, hpq]
          simp [bq3]
        injection hpq2 with e1 hpq3
        have hc23 : c2 = '`' ∧ c3 = '`' := by
          rcases a' with _ | ⟨x, a''⟩
          · have hcs2 : c2 :: c3 :: cs3 = '`' :: '`' :: '`' :: b := by
              rw [hcs]
              simp [bq3]
            injection hcs2 with f1 hcs3
            injection hcs3 with f2 _
            exact ⟨f1, f2⟩
          · simp only [List.nil_append, List.cons_append] at hpq3
            injection hpq3 with g1 hpq4
            rcases a'' with _ | ⟨y, a3⟩
            · have hcs2 : c2 :: c3 :: cs3 = x :: '`' :: '`' :: '`' :: b := by
                rw [hcs]
                simp [bq3]
              injection hcs2 with f1 hcs3
              injection hcs3 with f2 _
              exact ⟨by rw [f1, g1], f2⟩
            · injection hpq4 with g2 _
              have hcs2 : c2 :: c3 :: cs3 = x :: y :: (a3 ++ bq3 ++ b) := by
                rw [hcs]
                simp
              injection hcs2 with f1 hcs3
              injection hcs3 with f2 _
              exact ⟨by rw [f1, g1], by rw [f2, g2]⟩
        exact hb ⟨e1, hc23.1, hc23.2⟩
      · have hpq2 : c :: (a' ++ ['`', '`']) = pc :: (p' ++ bq3 ++ q) := by
          have : (c :: a') ++ ['`', '`'] = c :: (a' ++ ['`', '`']) := by simp
          rw [← this, hpq]
          simp
        injection hpq2 with _ h2'
        exact hna ⟨p', q, h2'⟩

theorem dropWhile_append_all (p : Char → Bool) :
    ∀ (u : List Char), (∀ c ∈ u, p c = true) →
      ∀ v, (u ++ v).dropWhile p = v.dropWhile p := by
  intro u
  induction u with
  | nil =>
    intro _ v
    rfl
  | cons a u' ih =>
    intro hu v
    rw [List.cons_append, List.dropWhile_cons, hu a (by simp), if_pos rfl]
    exact ih (fun c hc => hu c (List.mem_cons_of_mem a hc)) v

theorem dropTrail_append_all (p : Char → Bool) (w u : List Char)
    (hu : ∀ c ∈ u, p c = true) : dropTrail p (w ++ u) = dropTrail p w := by
  rw [dropTrail, dropTrail, List.reverse_append,
    dropWhile_append_all p u.reverse (fun c hc => hu c (List.mem_reverse.mp hc)) w.reverse]

theorem stripEnds_bq3_wrap (x : List Char) :
    stripEnds isBacktick (bq3 ++ x ++ bq3) = stripEnds isBacktick x := by
  rw [stripEnds, stripEnds]
  rw [show bq3 ++ x ++ bq3 = bq3 ++ (x ++ bq3) from by simp]
  rw [dropWhile_append_all isBacktick bq3 (by decide) (x ++ bq3)]
  rw [List.dropWhile_append]
  split_ifs with hemp
  · rw [List.isEmpty_iff.mp hemp, show List.dropWhile isBacktick bq3 = [] from by decide]
  · rw [dropTrail_append_all isBacktick _ bq3 (by decide)]

theorem splitTriple_scan {a b : List Char} (hna : ¬Trip (a ++ ['`', '`'])) :
    splitTriple (a ++ bq3 ++ b) = a :: splitTriple b := by
  rw [splitTriple, splitTripleAux_scan_bq3 a hna [] b]
  simp [splitTriple]

theorem splitTriple_no_trip {b : List Char} (h : ¬Trip b) : splitTriple b = [b] := by
  rw [splitTriple, splitTripleAux_no_trip b [] h]
  simp

theorem fence_sub_unclosed {a b : List Char} (hna : ¬Trip (a ++ ['`', '`']))
    (hb : ¬Trip b) : fence_sub (a ++ bq3 ++ b) = a ++ bq3 ++ b := by
  rw [fence_sub, splitTriple_scan hna, splitTriple_no_trip hb]
  rfl

theorem fence_sub_closed {a a2 b2 : List Char} (hna : ¬Trip (a ++ ['`', '`']))
    (hna2 : ¬Trip (a2 ++ ['`', '`'])) :
    fence_sub (a ++ bq3 ++ (a2 ++ bq3 ++ b2))
      = a ++ stripEnds isBacktick (bq3 ++ a2 ++ bq3) ++ fence_sub b2 := by
  have hsplit : splitTriple (a ++ bq3 ++ (a2 ++ bq3 ++ b2))
      = a :: a2 :: splitTriple b2 := by
    rw [splitTriple_scan hna, splitTriple_scan hna2]
  have hne : splitTriple b2 ≠ [] := by
    by_cases h3 : Trip b2
    · obtain ⟨a3, b3, rfl, hna3⟩ := trip_leftmost b2 h3
      rw [splitTriple_scan hna3]
      simp
    · rw [splitTriple_no_trip h3]
      simp
  rcases hS : splitTriple b2 with _ | ⟨s0, S'⟩
  · exact absurd hS hne
  · rw [fence_sub, hsplit, hS]
    rw [show glueFence (a :: a2 :: s0 :: S')
        = a ++ stripEnds isBacktick (bq3 ++ a2 ++ bq3) ++ glueFence (s0 :: S') from rfl]
    rw [fence_sub, hS]

theorem fence_sub_no_pat_len :
    ∀ (n : Nat) (l : List Char), l.length ≤ n → ¬Pat (fence_sub l) := by
  intro n
  induction n with
  | zero =>
    intro l hlen hp
    have hl : l = [] := by
      cases l with
      | nil => rfl
      | cons c cs => simp at hlen
    subst hl
    rw [fence_sub_no_trip (fun ht => absurd (trip_length ht) (by simp))] at hp
    exact absurd (pat_has_bq hp) (by simp)
  | succ n ih =>
    intro l hlen
    by_cases h1 : Trip l
    · obtain ⟨a, b, rfl, hna⟩ := trip_leftmost l h1
      by_cases h2 : Trip b
      · obtain ⟨a2, b2, rfl, hna2⟩ := trip_leftmost b h2
        rw [fence_sub_closed hna hna2]
        intro hp
        have hM : ¬Trip (stripEnds isBacktick (bq3 ++ a2 ++ bq3)) := by
          rw [stripEnds_bq3_wrap]
          intro ht
          obtain ⟨x, y, hxy, _, _⟩ := stripEnds_decomp isBacktick a2
          exact no_trip_of_pad hna2 (trip_occurs ⟨x, y, hxy⟩ ht)
        have hMl : lastNotBq (stripEnds isBacktick (bq3 ++ a2 ++ bq3)) := by
          intro hl2
          have hlast := stripEnds_last_not isBacktick (bq3 ++ a2 ++ bq3) hl2
          simp [isBacktick] at hlast
        rw [List.append_assoc] at hp
        have hp2 := pat_split (no_trip_of_pad hna) (lastNotBq_of_pad hna) hp
        have hp3 := pat_split hM hMl hp2
        have hlen2 : b2.length ≤ n := by
          simp [bq3] at hlen
          omega
        exact ih b2 hlen2 hp3
      · rw [fence_sub_unclosed hna h2]
        intro hp
        rw [List.append_assoc] at hp
        exact h2 (pat_bq3_trip (pat_split (no_trip_of_pad hna) (lastNotBq_of_pad hna) hp))
    · rw [fence_sub_no_trip h1]
      exact fun hp => h1 (pat_trip hp)

theorem fence_sub_no_pat (l : List Char) : ¬Pat (fence_sub l) :=
  fence_sub_no_pat_len l.length l (le_refl _)

theorem fence_sub_of_no_pat {l : List Char} (h : ¬Pat l) : fence_sub l = l := by
  by_cases h1 : Trip l
  · obtain ⟨a, b, rfl, hna⟩ := trip_leftmost l h1
    have h2 : ¬Trip b := by
      intro hb
      obtain ⟨q, r, rfl⟩ := hb
      exact h ⟨a, q, r, by simp⟩
    exact fence_sub_unclosed hna h2
  · exact fence_sub_no_trip h1

/-- C8: `_sanitize_response_text` is idempotent: applying the fence-stripping,
outer-strip and separator-normalization pipeline to its own output returns
that output unchanged. -/
theorem claim_C8 (t : List Char) :
    sanitize_response_text (sanitize_response_text t) = sanitize_response_text t := by
  have hnp2 : ¬Pat (stripEnds isOuterStrip (fence_sub t)) := by
    intro hp
    obtain ⟨x, y, hxy, _, _⟩ := stripEnds_decomp isOuterStrip (fence_sub t)
    exact fence_sub_no_pat t (pat_occurs ⟨x, y, hxy⟩ hp)
  have hnp3 : ¬Pat (sanitize_response_text t) := fun hp => hnp2 (sep_sub_pat hp)
  have hf : fence_sub (sanitize_response_text t) = sanitize_response_text t :=
    fence_sub_of_no_pat hnp3
  have hst : stripEnds isOuterStrip (sanitize_response_text t)
      = sanitize_response_text t := by
    apply stripEnds_eq_self
    · intro c hc
      have hc2 : (sep_sub (stripEnds isOuterStrip (fence_sub t))).head? = some c := hc
      rcases sep_sub_head (stripEnds isOuterStrip (fence_sub t)) with hh | hh
      · rw [hc2] at hh
        injection hh with hh2
        rw [hh2]
        decide
      · rw [hc2] at hh
        exact stripEnds_head_not isOuterStrip (fence_sub t) hh.symm
    · intro c hc
      have hc2 : (sep_sub (stripEnds isOuterStrip (fence_sub t))).getLast? = some c := hc
      rcases sep_sub_last (stripEnds isOuterStrip (fence_sub t)) with hnil | hh | hh
      · rw [hnil] at hc2
        simp [List.getLast?] at hc2
      · rw [hc2] at hh
        injection hh with hh2
        rw [hh2]
        decide
      · rw [hc2] at hh
        exact stripEnds_last_not isOuterStrip (fence_sub t) hh.symm
  conv_lhs => rw [show sanitize_response_text (sanitize_response_text t)
      = sep_sub (stripEnds isOuterStrip (fence_sub (sanitize_response_text t))) from rfl]
  rw [hf, hst]
  exact sep_sub_idem (stripEnds isOuterStrip (fence_sub t))

end Memphis
